import Mathlib

/-!
Formal model of multilspy's `LanguageServer` (src/multilspy/language_server.py).

The Python source is shallowly embedded: buffer contents are `List Char`, the
MD5 content hash is computed by an executable MD5 implementation, stateful
methods become pure functions from their inputs (with LSP notifications
returned as explicit event values), and calls that can raise Python
exceptions return `Except Unit`.  Responses obtained from the language
server process are passed in as explicit arguments or oracle functions.
-/

deriving instance DecidableEq for Except

namespace Multilspy

/-! ### MD5 (model of `hashlib.md5(...).hexdigest()` used for `content_hash`) -/

/-- The 64 per-round MD5 constants (`K[i] = floor(2^32 * abs(sin(i+1)))`). -/
def md5K : List Nat :=
  [0xd76aa478, 0xe8c7b756, 0x242070db, 0xc1bdceee,
   0xf57c0faf, 0x4787c62a, 0xa8304613, 0xfd469501,
   0x698098d8, 0x8b44f7af, 0xffff5bb1, 0x895cd7be,
   0x6b901122, 0xfd987193, 0xa679438e, 0x49b40821,
   0xf61e2562, 0xc040b340, 0x265e5a51, 0xe9b6c7aa,
   0xd62f105d, 0x02441453, 0xd8a1e681, 0xe7d3fbc8,
   0x21e1cde6, 0xc33707d6, 0xf4d50d87, 0x455a14ed,
   0xa9e3e905, 0xfcefa3f8, 0x676f02d9, 0x8d2a4c8a,
   0xfffa3942, 0x8771f681, 0x6d9d6122, 0xfde5380c,
   0xa4beea44, 0x4bdecfa9, 0xf6bb4b60, 0xbebfbc70,
   0x289b7ec6, 0xeaa127fa, 0xd4ef3085, 0x04881d05,
   0xd9d4d039, 0xe6db99e5, 0x1fa27cf8, 0xc4ac5665,
   0xf4292244, 0x432aff97, 0xab9423a7, 0xfc93a039,
   0x655b59c3, 0x8f0ccc92, 0xffeff47d, 0x85845dd1,
   0x6fa87e4f, 0xfe2ce6e0, 0xa3014314, 0x4e0811a1,
   0xf7537e82, 0xbd3af235, 0x2ad7d2bb, 0xeb86d391]

/-- The MD5 per-round left-rotation amounts. -/
def md5S : List Nat :=
  [7, 12, 17, 22, 7, 12, 17, 22, 7, 12, 17, 22, 7, 12, 17, 22,
   5, 9, 14, 20, 5, 9, 14, 20, 5, 9, 14, 20, 5, 9, 14, 20,
   4, 11, 16, 23, 4, 11, 16, 23, 4, 11, 16, 23, 4, 11, 16, 23,
   6, 10, 15, 21, 6, 10, 15, 21, 6, 10, 15, 21, 6, 10, 15, 21]

/-- 32-bit left rotation. -/
def rotl32 (x s : Nat) : Nat :=
  ((x <<< s) % 4294967296) ||| (x >>> (32 - s))

/-- The MD5 round function F/G/H/I, selected by round index. -/
def md5FVal (i b c d : Nat) : Nat :=
  if i < 16 then (b &&& c) ||| ((4294967295 - b) &&& d)
  else if i < 32 then (d &&& b) ||| ((4294967295 - d) &&& c)
  else if i < 48 then (b ^^^ c) ^^^ d
  else c ^^^ (b ||| (4294967295 - d))

/-- The MD5 message-word index for round `i`. -/
def md5GIdx (i : Nat) : Nat :=
  if i < 16 then i
  else if i < 32 then (5 * i + 1) % 16
  else if i < 48 then (3 * i + 5) % 16
  else (7 * i) % 16

/-- One MD5 round on the state `(a, b, c, d)`. -/
def md5Round (m : List Nat) (st : Nat × Nat × Nat × Nat) (i : Nat) : Nat × Nat × Nat × Nat :=
  match st with
  | (a, b, c, d) =>
    let f := (md5FVal i b c d + a + md5K.getD i 0 + m.getD (md5GIdx i) 0) % 4294967296
    (d, (b + rotl32 f (md5S.getD i 0)) % 4294967296, b, c)

/-- Little-endian 32-bit word from four bytes. -/
def leWord (b0 b1 b2 b3 : Nat) : Nat :=
  b0 + b1 * 256 + b2 * 65536 + b3 * 16777216

/-- Split a 64-byte chunk into sixteen little-endian words. -/
def chunkWords : List Nat → List Nat
  | b0 :: b1 :: b2 :: b3 :: rest => leWord b0 b1 b2 b3 :: chunkWords rest
  | _ => []

/-- Split a byte list into 64-byte chunks (fuel-driven for structural recursion). -/
def md5Chunks : Nat → List Nat → List (List Nat)
  | 0, _ => []
  | _, [] => []
  | fuel + 1, l => l.take 64 :: md5Chunks fuel (l.drop 64)

/-- Process one 64-byte chunk of the MD5 input. -/
def md5ProcChunk (st : Nat × Nat × Nat × Nat) (chunk : List Nat) : Nat × Nat × Nat × Nat :=
  let m := chunkWords chunk
  match (List.range 64).foldl (md5Round m) st with
  | (a, b, c, d) =>
    match st with
    | (a0, b0, c0, d0) =>
      ((a0 + a) % 4294967296, (b0 + b) % 4294967296, (c0 + c) % 4294967296, (d0 + d) % 4294967296)

/-- MD5 padding: a 0x80 byte, zeros to 56 mod 64, then the 64-bit bit length little-endian. -/
def md5Pad (msg : List Nat) : List Nat :=
  let bitLen := (msg.length * 8) % (2 ^ 64)
  let padZeros := (119 - msg.length % 64) % 64
  msg ++ [128] ++ List.replicate padZeros 0 ++
    [bitLen % 256, (bitLen >>> 8) % 256, (bitLen >>> 16) % 256, (bitLen >>> 24) % 256,
     (bitLen >>> 32) % 256, (bitLen >>> 40) % 256, (bitLen >>> 48) % 256, (bitLen >>> 56) % 256]

/-- The MD5 digest of a byte list as the four 32-bit state words. -/
def md5Digest (msg : List Nat) : Nat × Nat × Nat × Nat :=
  let padded := md5Pad msg
  (md5Chunks padded.length padded).foldl md5ProcChunk
    (0x67452301, 0xefcdab89, 0x98badcfe, 0x10325476)

/-- The four little-endian bytes of a 32-bit word. -/
def natLeBytes4 (x : Nat) : List Nat :=
  [x % 256, (x >>> 8) % 256, (x >>> 16) % 256, (x >>> 24) % 256]

/-- Lowercase hex character for a nibble. -/
def hexChar (n : Nat) : Char :=
  if n < 10 then Char.ofNat (48 + n) else Char.ofNat (87 + n)

/-- Two lowercase hex characters for a byte. -/
def byteHex (b : Nat) : List Char :=
  [hexChar (b / 16), hexChar (b % 16)]

/-- UTF-8 encoding of one character (model of Python `str.encode("utf-8")`). -/
def utf8Bytes (c : Char) : List Nat :=
  let n := c.toNat
  if n < 128 then [n]
  else if n < 2048 then [192 ||| (n >>> 6), 128 ||| (n &&& 63)]
  else if n < 65536 then [224 ||| (n >>> 12), 128 ||| ((n >>> 6) &&& 63), 128 ||| (n &&& 63)]
  else [240 ||| (n >>> 18), 128 ||| ((n >>> 12) &&& 63), 128 ||| ((n >>> 6) &&& 63), 128 ||| (n &&& 63)]

/-- UTF-8 encoding of a character list. -/
def encodeUtf8 (s : List Char) : List Nat :=
  s.flatMap utf8Bytes

/-- `hashlib.md5(s.encode("utf-8")).hexdigest()` as a list of hex characters. -/
def md5Hexdigest (s : List Char) : List Char :=
  match md5Digest (encodeUtf8 s) with
  | (a, b, c, d) =>
    (natLeBytes4 a ++ natLeBytes4 b ++ natLeBytes4 c ++ natLeBytes4 d).flatMap byteHex

/-! ### Python string primitives -/

/-- Accumulator worker for `splitOnChar`. -/
def splitOnCharAux (sep : Char) : List Char → List Char → List (List Char)
  | [], acc => [acc.reverse]
  | c :: rest, acc =>
    if c = sep then acc.reverse :: splitOnCharAux sep rest []
    else splitOnCharAux sep rest (c :: acc)

/-- Python `s.split(sep)` for a one-character separator (`"".split(sep) == [""]`). -/
def splitOnChar (sep : Char) (l : List Char) : List (List Char) :=
  splitOnCharAux sep l []

/-- The characters removed by Python `str.strip()`. -/
def isPySpace (c : Char) : Bool :=
  c = ' ' || c = '\t' || c = '\n' || c = '\r' || c = '\x0b' || c = '\x0c'

/-- Python `s.strip()`. -/
def pyStrip (l : List Char) : List Char :=
  ((l.dropWhile isPySpace).reverse.dropWhile isPySpace).reverse

/-- The suffix of `c` after its first newline (empty if there is none). -/
def restAfterNl (c : List Char) : List Char :=
  (c.dropWhile (· ≠ '\n')).tail

/-! ### TextUtils (spec-modelled position arithmetic) -/

/-- Modelled from the spec: `TextUtils.get_index_from_line_col` of
`multilspy_utils`, which is not part of this repository snapshot (only its
caller `language_server.py` is).  Per the spec (§3, §4.4), positions are
zero-indexed `(line, character)` pairs and the index conversion maps
`(line, col)` to the offset in `contents`: the lengths of the first `line`
lines, each plus one for its newline, summed, plus `col`. -/
def get_index_from_line_col : List Char → Nat → Nat → Nat
  | _, 0, col => col
  | c, line + 1, col =>
    (c.takeWhile (· ≠ '\n')).length + 1 + get_index_from_line_col (restAfterNl c) line col

/-- Modelled from the spec:
`TextUtils.get_updated_position_from_line_and_column_and_edit` of
`multilspy_utils`, not part of this repository snapshot.  Per the spec
(§4.4), the returned cursor is "computed by walking `text` and advancing
line/character": a newline advances the line and resets the character. -/
def get_updated_position : Nat → Nat → List Char → Nat × Nat
  | line, col, [] => (line, col)
  | line, col, ch :: rest =>
    if ch = '\n' then get_updated_position (line + 1) 0 rest
    else get_updated_position line (col + 1) rest

/-! ### Data model -/

/-- LSP position: zero-indexed line/character. -/
structure Position where
  line : Nat
  character : Nat
deriving DecidableEq

/-- LSP range. -/
structure LspRange where
  start : Position
  endPos : Position
deriving DecidableEq

/-- `multilspy_types.Location`: uri plus derived absolute/relative paths and a range. -/
structure MLocation where
  uri : String
  absolutePath : String
  relativePath : String
  range : LspRange
deriving DecidableEq

/-- `multilspy_types.UnifiedSymbolInformation`, restricted to the fields the
engine reads: name, kind, range, selectionRange and an optional location
(`none` models a Python dict without a `location` key, as for the
hierarchical `DocumentSymbol` shape). -/
structure USym where
  name : String
  kind : Nat
  range : LspRange
  selectionRange : LspRange
  location : Option MLocation
deriving DecidableEq

/-- LSP notifications emitted by the buffer manager. -/
inductive LSPEvent where
  | didOpen (uri : String) (version : Nat) (text : List Char)
  | didChange (uri : String) (version : Nat)
  | didClose (uri : String)
deriving DecidableEq

/-- `LSPFileBuffer` (language_server.py lines 37-63). -/
structure LSPFileBuffer where
  uri : String
  contents : List Char
  version : Nat
  language_id : String
  ref_count : Nat
  content_hash : List Char
deriving DecidableEq

/-- `LSPFileBuffer.__post_init__`: the constructor computes
`content_hash = hashlib.md5(contents.encode("utf-8")).hexdigest()`. -/
def mkLSPFileBuffer (uri : String) (contents : List Char) (version : Nat)
    (language_id : String) (ref_count : Nat) : LSPFileBuffer :=
  { uri := uri, contents := contents, version := version, language_id := language_id,
    ref_count := ref_count, content_hash := md5Hexdigest contents }

/-! ### Buffer edits (`insert_text_at_position`, `delete_text_between_positions`) -/

/-- `LanguageServer.insert_text_at_position` (lines 260-309): bump the version,
splice the text into `contents` at the computed index, emit `didChange` with
the new version, and return the updated cursor.  The code does not touch
`content_hash`. -/
def insert_text_at_position (buf : LSPFileBuffer) (line column : Nat)
    (text_to_be_inserted : List Char) : LSPFileBuffer × Position × LSPEvent :=
  let change_index := get_index_from_line_col buf.contents line column
  let new_contents :=
    buf.contents.take change_index ++ text_to_be_inserted ++ buf.contents.drop change_index
  let buf' := { buf with version := buf.version + 1, contents := new_contents }
  let p := get_updated_position line column text_to_be_inserted
  (buf', ⟨p.1, p.2⟩, .didChange buf.uri (buf.version + 1))

/-- `LanguageServer.delete_text_between_positions` (lines 311-348): bump the
version, remove the slice between the two computed indices, emit `didChange`,
and return the deleted text.  The code does not touch `content_hash`. -/
def delete_text_between_positions (buf : LSPFileBuffer) (start stop : Position) :
    LSPFileBuffer × List Char × LSPEvent :=
  let del_start_idx := get_index_from_line_col buf.contents start.line start.character
  let del_end_idx := get_index_from_line_col buf.contents stop.line stop.character
  let deleted_text := (buf.contents.drop del_start_idx).take (del_end_idx - del_start_idx)
  let buf' :=
    { buf with
      version := buf.version + 1
      contents := buf.contents.take del_start_idx ++ buf.contents.drop del_end_idx }
  (buf', deleted_text, .didChange buf.uri (buf.version + 1))

/-- An edit issued through the buffer manager. -/
inductive EditOp where
  | insertOp (line column : Nat) (text : List Char)
  | deleteOp (start stop : Position)

/-- Apply an edit to a buffer through the manager's operations. -/
def applyEditBuf (b : LSPFileBuffer) : EditOp → LSPFileBuffer
  | .insertOp line column text => (insert_text_at_position b line column text).1
  | .deleteOp start stop => (delete_text_between_positions b start stop).1

/-- Apply the same edit to a plain string (fresh string copy semantics). -/
def applyEditStr (c : List Char) : EditOp → List Char
  | .insertOp line column text =>
    let i := get_index_from_line_col c line column
    c.take i ++ text ++ c.drop i
  | .deleteOp start stop =>
    let i := get_index_from_line_col c start.line start.character
    let j := get_index_from_line_col c stop.line stop.character
    c.take i ++ c.drop j

/-- `(line, col)` names a real position of `c`: the line exists and `col` does
not run past its end. -/
def validPos : List Char → Nat → Nat → Bool
  | c, 0, col => decide (col ≤ (c.takeWhile (· ≠ '\n')).length)
  | c, line + 1, col => decide ('\n' ∈ c) && validPos (restAfterNl c) line col

/-! ### The open-file table (`LanguageServer.open_file`, lines 207-258) -/

/-- Lookup in the `open_file_buffers` dict (modelled as an association list). -/
def lookupBuf : List (String × LSPFileBuffer) → String → Option LSPFileBuffer
  | [], _ => none
  | (k, v) :: rest, uri => if k = uri then some v else lookupBuf rest uri

/-- Replace the entry for `uri`. -/
def updateBuf : List (String × LSPFileBuffer) → String → LSPFileBuffer →
    List (String × LSPFileBuffer)
  | [], _, _ => []
  | (k, v) :: rest, uri, b => if k = uri then (k, b) :: rest else (k, v) :: updateBuf rest uri b

/-- Delete the entry for `uri`. -/
def removeBuf : List (String × LSPFileBuffer) → String → List (String × LSPFileBuffer)
  | [], _ => []
  | (k, v) :: rest, uri => if k = uri then rest else (k, v) :: removeBuf rest uri

/-- Entry half of the `open_file` context manager: on a repeat open bump
`ref_count`; on a first open read the file from disk, insert a buffer with
`version = 0` and `ref_count = 1`, and emit `didOpen`. -/
def open_file_enter (disk : String → List Char) (language_id : String)
    (tbl : List (String × LSPFileBuffer)) (uri : String) :
    List (String × LSPFileBuffer) × List LSPEvent :=
  match lookupBuf tbl uri with
  | some buf => (updateBuf tbl uri { buf with ref_count := buf.ref_count + 1 }, [])
  | none =>
    let contents := disk uri
    (tbl ++ [(uri, mkLSPFileBuffer uri contents 0 language_id 1)],
     [.didOpen uri 0 contents])

/-- Exit half of the `open_file` context manager: decrement `ref_count`, and
exactly when it reaches zero emit `didClose` and delete the entry. -/
def open_file_exit (tbl : List (String × LSPFileBuffer)) (uri : String) :
    List (String × LSPFileBuffer) × List LSPEvent :=
  match lookupBuf tbl uri with
  | none => (tbl, [])
  | some buf =>
    let buf' := { buf with ref_count := buf.ref_count - 1 }
    if buf'.ref_count = 0 then (removeBuf tbl uri, [.didClose uri])
    else (updateBuf tbl uri buf', [])

/-! ### Symbol kinds -/

def SymbolKindClass : Nat := 5
def SymbolKindMethod : Nat := 6
def SymbolKindFunction : Nat := 12
def SymbolKindVariable : Nat := 13

/-! ### `request_containing_symbol` (lines 830-943) -/

/-- The jedi/pyright location normalization (lines 880-895): symbols without a
`location` get one synthesized from their `range`; symbols with one get its
uri/absolutePath/relativePath overwritten, keeping its range. -/
def normalize_symbol_location (absolute_file_path relative_file_path : String)
    (s : USym) : USym :=
  match s.location with
  | none =>
    { s with location := some { uri := "file:/" ++ absolute_file_path,
                                absolutePath := absolute_file_path,
                                relativePath := relative_file_path,
                                range := s.range } }
  | some loc =>
    { s with location := some { loc with uri := "file:/" ++ absolute_file_path,
                                         absolutePath := absolute_file_path,
                                         relativePath := relative_file_path } }

/-- The range the containing-symbol code reads (`s["location"]["range"]`);
after `normalize_symbol_location` the location is always present. -/
def USym.locRange (s : USym) : LspRange :=
  match s.location with
  | some loc => loc.range
  | none => s.range

/-- `is_position_in_range` (lines 904-917). -/
def is_position_in_range (strict : Bool) (column : Option Nat) (line : Nat)
    (range_d : LspRange) : Bool :=
  let start := range_d.start
  let e := range_d.endPos
  let line_condition :=
    if strict then decide (e.line ≥ line ∧ line > start.line)
    else decide (e.line ≥ line ∧ line ≥ start.line)
  let column_condition :=
    match column with
    | none => true
    | some col =>
      if strict then decide (col > start.character) else decide (col ≥ start.character)
  line_condition && column_condition

/-- Python `max(xs, key=...)`: keeps the current maximum and replaces it only
on a strictly greater key, so ties yield the first maximal element. -/
def pymaxBy (key : USym → Nat) : USym → List USym → USym
  | cur, [] => cur
  | cur, x :: xs => if key x > key cur then pymaxBy key x xs else pymaxBy key cur xs

/-- The `candidate_containers` list (lines 920-926): class/function/method
symbols spanning more than one line, followed by all variable symbols. -/
def containing_candidates (syms : List USym) : List USym :=
  (syms.filter (fun s =>
      (s.kind == SymbolKindMethod || s.kind == SymbolKindFunction || s.kind == SymbolKindClass)
        && s.locRange.start.line != s.locRange.endPos.line))
    ++ syms.filter (fun s => s.kind == SymbolKindVariable)

/-- The `containing_symbols` list (lines 931-937). -/
def containing_matches (strict : Bool) (column : Option Nat) (line : Nat)
    (cands : List USym) : List USym :=
  cands.filter (fun s => is_position_in_range strict column line s.locRange)

/-- `LanguageServer.request_containing_symbol`.  `disk_content` is what
`FileUtils.read_file` returns for the file (the method re-reads the file from
disk for its blank-line check); `symbols` is the document-symbol list the
server returned.  `Except.error` models the `IndexError` raised when `line`
is past the lines of the split disk content. -/
def request_containing_symbol_impl (disk_content : List Char) (symbols : List USym)
    (absolute_file_path relative_file_path : String)
    (line : Nat) (column : Option Nat) (strict : Bool) : Except Unit (Option USym) :=
  match (splitOnChar '\n' disk_content).get? line with
  | none => .error ()
  | some l =>
    if pyStrip l = [] then .ok none
    else
      let syms := symbols.map (normalize_symbol_location absolute_file_path relative_file_path)
      let cands := containing_candidates syms
      if cands.isEmpty then .ok none
      else
        match containing_matches strict column line cands with
        | [] => .ok none
        | x :: xs => .ok (some (pymaxBy (fun s => s.locRange.start.line) x xs))

/-! ### `request_document_symbols` flattening (lines 641-670) -/

mutual
/-- A hierarchical `DocumentSymbol` tree node (its dict minus `children`,
plus the children). -/
inductive DocTree where
  | node (info : USym) (children : DocForest)
deriving DecidableEq
/-- A list of sibling `DocumentSymbol` nodes. -/
inductive DocForest where
  | nil
  | cons (hd : DocTree) (tl : DocForest)
deriving DecidableEq
end

mutual
/-- `visit_tree_nodes_and_build_tree_repr` (lines 652-660): one flat entry per
node (its own fields, children detached), then the recursively flattened
children — a depth-first preorder walk. -/
def visitTree : DocTree → List USym
  | .node info children => info :: visitForest children
def visitForest : DocForest → List USym
  | .nil => []
  | .cons hd tl => visitTree hd ++ visitForest tl
end

mutual
def DocTree.size : DocTree → Nat
  | .node _ children => 1 + children.size
def DocForest.size : DocForest → Nat
  | .nil => 0
  | .cons hd tl => hd.size + tl.size
end

mutual
/-- `s` is the info record of some node of the tree. -/
def treeContainsInfo (s : USym) : DocTree → Bool
  | .node info children => s == info || forestContainsInfo s children
def forestContainsInfo (s : USym) : DocForest → Bool
  | .nil => false
  | .cons hd tl => treeContainsInfo s hd || forestContainsInfo s tl
end

/-- The `request_document_symbols` response loop (lines 644-664): items whose
dict has a `children` key (`some` children, possibly empty) are flattened by
`visitTree`; items without the key are appended as they are. -/
def request_document_symbols_flatten : List (USym × Option DocForest) → List USym
  | [] => []
  | (info, some ch) :: rest => visitTree (.node info ch) ++ request_document_symbols_flatten rest
  | (info, none) :: rest => info :: request_document_symbols_flatten rest

/-! ### `request_referencing_symbols` (lines 720-828) -/

/-- A reference location as produced by `request_references`. -/
structure RefLoc where
  uri : String
  absolutePath : String
  relativePath : String
  range : LspRange
deriving DecidableEq

/-- The attribute-assignment fallback (lines 768-791): when no containing
symbol is found, read the reference's line from the open buffer, and if it
contains a dot, look for a Variable document symbol named by the text before
the first dot; on a hit return a copy with `location`/`range` replaced by the
reference.  `bufferContents` gives each path's open-buffer contents and
`docSyms` the document-symbol list per path; `Except.error` models the
`IndexError` when the reference line is out of range. -/
def referencingFallback (bufferContents : String → List Char)
    (docSyms : String → List USym) (ref : RefLoc) : Except Unit (Option USym) :=
  match (splitOnChar '\n' (bufferContents ref.relativePath)).get? ref.range.start.line with
  | none => .error ()
  | some ref_text =>
    if ref_text.contains '.' then
      let containing_symbol_name := ref_text.takeWhile (· ≠ '.')
      match (docSyms ref.relativePath).find?
          (fun s => s.name == String.mk containing_symbol_name
            && s.kind == SymbolKindVariable) with
      | some symbol =>
        .ok (some { symbol with
          location := some { uri := ref.uri, absolutePath := ref.absolutePath,
                             relativePath := ref.relativePath, range := ref.range },
          range := ref.range })
      | none => .ok none
    else .ok none

/-- The body of the reference loop (lines 756-828).  `csym path line col` is
the result of `request_containing_symbol(path, line, col)` for a reference;
`incoming` is the `incoming_symbol` variable; `acc` holds the result in
reverse. -/
def referencingGo (csym : String → Nat → Nat → Option USym)
    (bufferContents : String → List Char) (docSyms : String → List USym)
    (relative_file_path : String) (include_imports include_self : Bool) :
    List RefLoc → Option USym → List USym → Except Unit (List USym)
  | [], _, acc => .ok acc.reverse
  | ref :: rest, incoming, acc =>
    let ref_line := ref.range.start.line
    let ref_col := ref.range.start.character
    let resolved : Except Unit (Option USym) :=
      match csym ref.relativePath ref_line ref_col with
      | some cs => .ok (some cs)
      | none => referencingFallback bufferContents docSyms ref
    match resolved with
    | .error e => .error e
    | .ok none =>
      -- warning logged, reference skipped
      referencingGo csym bufferContents docSyms relative_file_path
        include_imports include_self rest incoming acc
    | .ok (some cs) =>
      match cs.location with
      | none => .error ()
      | some loc =>
        if loc.relativePath = relative_file_path
            ∧ cs.selectionRange.start.line = ref_line
            ∧ cs.selectionRange.start.character = ref_col then
          if include_self then
            referencingGo csym bufferContents docSyms relative_file_path
              include_imports include_self rest (some cs) (cs :: acc)
          else
            referencingGo csym bufferContents docSyms relative_file_path
              include_imports include_self rest (some cs) acc
        else
          match incoming with
          | some inc =>
            if ¬include_imports ∧ cs.name = inc.name ∧ cs.kind = inc.kind then
              referencingGo csym bufferContents docSyms relative_file_path
                include_imports include_self rest (some inc) acc
            else
              referencingGo csym bufferContents docSyms relative_file_path
                include_imports include_self rest (some inc) (cs :: acc)
          | none =>
            referencingGo csym bufferContents docSyms relative_file_path
              include_imports include_self rest none (cs :: acc)

/-- `LanguageServer.request_referencing_symbols`: empty reference lists short
circuit to `[]`; otherwise the loop above runs over the references. -/
def request_referencing_symbols_impl (csym : String → Nat → Nat → Option USym)
    (bufferContents : String → List Char) (docSyms : String → List USym)
    (relative_file_path : String) (include_imports include_self : Bool)
    (references : List RefLoc) : Except Unit (List USym) :=
  if references.isEmpty then .ok []
  else referencingGo csym bufferContents docSyms relative_file_path
    include_imports include_self references none []

/-! ### `request_completions` (lines 518-610) -/

/-- The raw `textEdit` value of a completion item. -/
structure PyTextEdit where
  newText : Option String
  range : Option LspRange
  insertPart : Option LspRange
deriving DecidableEq

/-- A raw LSP completion item (`none` fields model absent dict keys). -/
structure RawCompletionItem where
  label : Option String
  insertText : Option String
  textEdit : Option PyTextEdit
  detail : Option String
  kind : Option Nat
deriving DecidableEq

/-- `multilspy_types.CompletionItem`. -/
structure CompletionItem where
  completionText : String
  kind : Nat
  detail : Option String
deriving DecidableEq

def CompletionItemKindKeyword : Nat := 14

/-- One server response to `textDocument/completion`. -/
inductive CompletionResponse where
  | listResp (items : List RawCompletionItem)
  | dictResp (items : List RawCompletionItem) (isIncomplete : Bool)
  | noneResp
deriving DecidableEq

/-- One call of `self.server.send.completion` followed by the list-to-dict
normalization (lines 545-549): a bare list becomes a complete response. -/
def completionCall (oracle : Nat → CompletionResponse) (n : Nat) :
    Option (List RawCompletionItem × Bool) :=
  match oracle n with
  | .noneResp => none
  | .listResp items => some (items, false)
  | .dictResp items isIncomplete => some (items, isIncomplete)

/-- The retry loop (lines 542-550): `while response is None or
(response["isIncomplete"] and num_retries < 30)`.  The loop condition does
not consult `allow_incomplete`.  `n` is `num_retries`; the fuel bounds the
modelled iterations (`none` = the Python loop has not exited within `fuel`
iterations, which can happen when the server keeps answering `None`). -/
def completionLoop (oracle : Nat → CompletionResponse) :
    Nat → Option (List RawCompletionItem × Bool) → Nat →
    Option ((List RawCompletionItem × Bool) × Nat)
  | 0, _, _ => none
  | fuel + 1, resp, n =>
    match resp with
    | none => completionLoop oracle fuel (completionCall oracle n) (n + 1)
    | some (items, isIncomplete) =>
      if isIncomplete && decide (n < 30) then
        completionLoop oracle fuel (completionCall oracle n) (n + 1)
      else some ((items, isIncomplete), n)

/-- The keyword filter (line 562): `[item for item in response if
item["kind"] != CompletionItemKind.Keyword]`; a missing `kind` key raises. -/
def filterKeywordItems : List RawCompletionItem → Except Unit (List RawCompletionItem)
  | [] => .ok []
  | item :: rest =>
    match item.kind with
    | none => .error ()
    | some k =>
      match filterKeywordItems rest with
      | .error e => .error e
      | .ok tail =>
        if k ≠ CompletionItemKindKeyword then .ok (item :: tail) else .ok tail

/-- The per-item normalization (lines 566-605), with `Except.error` for the
assertion failures and `KeyError`s of the Python code. -/
def normalizeCompletionItem (queryPos : Position) (item : RawCompletionItem) :
    Except Unit CompletionItem :=
  if item.insertText = none ∧ item.textEdit = none then .error ()
  else
    match item.kind with
    | none => .error ()
    | some k =>
      match item.label with
      | some lbl => .ok ⟨lbl, k, item.detail⟩
      | none =>
        match item.insertText with
        | some t => .ok ⟨t, k, item.detail⟩
        | none =>
          match item.textEdit with
          | none => .error ()
          | some te =>
            match te.newText with
            | some nt => .ok ⟨nt, k, item.detail⟩
            | none =>
              match te.range with
              | some r =>
                if r.start.line = queryPos.line ∧ r.start.character = queryPos.character
                    ∧ r.start.line = r.endPos.line
                    ∧ r.start.character = r.endPos.character then
                  -- the branch then reads `textEdit["newText"]`, absent here
                  .error ()
                else .error ()
              | none => .error ()

/-- Normalize a whole list, failing on the first bad item as the Python loop
does. -/
def normalizeCompletionList (queryPos : Position) :
    List RawCompletionItem → Except Unit (List CompletionItem)
  | [] => .ok []
  | item :: rest =>
    match normalizeCompletionItem queryPos item with
    | .error e => .error e
    | .ok ci =>
      match normalizeCompletionList queryPos rest with
      | .error e => .error e
      | .ok tail => .ok (ci :: tail)

/-- `LanguageServer.request_completions`: run the retry loop, return `[]` when
the final response is still incomplete and `allow_incomplete` is false,
otherwise filter keywords, normalize, and deduplicate (the Python code
deduplicates through a set of JSON dumps, i.e. by value; set order is
unspecified, modelled as first-occurrence `dedup`).  The second component is
the number of `completion` requests sent. -/
def request_completions (oracle : Nat → CompletionResponse) (queryPos : Position)
    (allow_incomplete : Bool) (fuel : Nat) :
    Option (Except Unit (List CompletionItem) × Nat) :=
  match completionLoop oracle fuel none 0 with
  | none => none
  | some ((items, isIncomplete), n) =>
    if isIncomplete && !allow_incomplete then some (.ok [], n)
    else
      some ((match filterKeywordItems items with
        | .error e => .error e
        | .ok filtered =>
          match normalizeCompletionList queryPos filtered with
          | .error e => .error e
          | .ok cl => .ok cl.dedup), n)

/-! ### The `_cache_has_changed` flag (lines 184, 669, 1003-1008) -/

/-- A Python value that is either a `bool` or the builtin type object `bool`
itself (which is what line 184 actually assigns). -/
inductive PyBoolLike where
  | val (b : Bool)
  | boolType
deriving DecidableEq

/-- Python truthiness: class objects such as `bool` are truthy. -/
def pyTruthy : PyBoolLike → Bool
  | .val b => b
  | .boolType => true

/-- `LanguageServer.__init__` line 184: `self._cache_has_changed = bool`
assigns the builtin type object, not `False`. -/
def init_cache_has_changed : PyBoolLike := .boolType

/-- `request_document_symbols` line 669: `self._cache_has_changed = True`. -/
def after_cache_mutation : PyBoolLike := .val true

/-- `save_cache` (lines 1003-1008) writes the pickle iff
`self._cache_has_changed` is truthy. -/
def save_cache_persists (flag : PyBoolLike) : Bool := pyTruthy flag

/-! ### Concrete instances used in the theorems below -/

/-- A buffer freshly opened on `"hello\nworld"` (the spec's edit scenario). -/
def bufHelloWorld : LSPFileBuffer :=
  mkLSPFileBuffer "file:///repo/a.py" ("hello\nworld".toList) 0 "python" 1

def c4uri : String := "file:///repo/m.py"

def c4disk : List Char := "x = 1\ndef f():\n    pass\n".toList

def c4diskFn : String → List Char := fun _ => c4disk

def c4buf : LSPFileBuffer := mkLSPFileBuffer c4uri c4disk 0 "python" 1

/-- A module-level Variable symbol `x` on disk line 0, as pyright reports it
(no `location` key). -/
def c4varX : USym :=
  { name := "x", kind := 13, range := ⟨⟨0, 0⟩, ⟨0, 5⟩⟩,
    selectionRange := ⟨⟨0, 0⟩, ⟨0, 1⟩⟩, location := none }

def c5uri : String := "file:///repo/w.py"

def c5diskFn : String → List Char := fun _ => "print".toList

def c5buf : LSPFileBuffer := mkLSPFileBuffer c5uri ("print".toList) 0 "python" 1

def c5buf2 : LSPFileBuffer := { c5buf with ref_count := 2 }

/-- A hierarchical document symbol (class `C`) with one child (method `m`),
both without a `location` key, as in a `DocumentSymbol[]` response. -/
def c6info0 : USym :=
  { name := "C", kind := 5, range := ⟨⟨0, 0⟩, ⟨2, 10⟩⟩,
    selectionRange := ⟨⟨0, 6⟩, ⟨0, 7⟩⟩, location := none }

def c6info1 : USym :=
  { name := "m", kind := 6, range := ⟨⟨1, 2⟩, ⟨2, 10⟩⟩,
    selectionRange := ⟨⟨1, 6⟩, ⟨1, 7⟩⟩, location := none }

def c6tree : DocTree := .node c6info0 (.cons (.node c6info1 .nil) .nil)

def c6resp : List (USym × Option DocForest) :=
  [(c6info0, some (.cons (.node c6info1 .nil) .nil))]

def c7disk : List Char := "def a(): pass\nbody\nbody2\n".toList

/-- Two multi-line function symbols starting on the same line with different
start characters. -/
def c7symA : USym :=
  { name := "a", kind := 12, range := ⟨⟨0, 0⟩, ⟨2, 0⟩⟩,
    selectionRange := ⟨⟨0, 4⟩, ⟨0, 5⟩⟩, location := none }

def c7symB : USym :=
  { name := "b", kind := 12, range := ⟨⟨0, 4⟩, ⟨2, 0⟩⟩,
    selectionRange := ⟨⟨0, 8⟩, ⟨0, 9⟩⟩, location := none }

def c7abs : String := "/repo/c.py"

def c7rel : String := "c.py"

/-- The defined symbol `foo` in a.py (selectionRange starts at its name). -/
def c8fooDef : USym :=
  { name := "foo", kind := 12, range := ⟨⟨0, 0⟩, ⟨1, 0⟩⟩,
    selectionRange := ⟨⟨0, 4⟩, ⟨0, 7⟩⟩,
    location := some ⟨"file:///repo/a.py", "/repo/a.py", "a.py", ⟨⟨0, 0⟩, ⟨1, 0⟩⟩⟩ }

/-- The import site of `foo` in b.py: same name and kind as the definition. -/
def c8fooImport : USym :=
  { name := "foo", kind := 12, range := ⟨⟨0, 0⟩, ⟨1, 0⟩⟩,
    selectionRange := ⟨⟨0, 7⟩, ⟨0, 10⟩⟩,
    location := some ⟨"file:///repo/b.py", "/repo/b.py", "b.py", ⟨⟨0, 0⟩, ⟨1, 0⟩⟩⟩ }

/-- The function `bar` in a.py containing a genuine reference. -/
def c8bar : USym :=
  { name := "bar", kind := 12, range := ⟨⟨2, 0⟩, ⟨4, 0⟩⟩,
    selectionRange := ⟨⟨2, 4⟩, ⟨2, 7⟩⟩,
    location := some ⟨"file:///repo/a.py", "/repo/a.py", "a.py", ⟨⟨2, 0⟩, ⟨4, 0⟩⟩⟩ }

/-- Reference to `foo` at its import in b.py, reported before the others. -/
def c8refB : RefLoc := ⟨"file:///repo/b.py", "/repo/b.py", "b.py", ⟨⟨0, 0⟩, ⟨0, 3⟩⟩⟩

/-- Reference at the definition site of `foo` in a.py (the self reference). -/
def c8refSelf : RefLoc := ⟨"file:///repo/a.py", "/repo/a.py", "a.py", ⟨⟨0, 4⟩, ⟨0, 7⟩⟩⟩

/-- Reference to `foo` inside `bar` in a.py. -/
def c8refBar : RefLoc := ⟨"file:///repo/a.py", "/repo/a.py", "a.py", ⟨⟨3, 2⟩, ⟨3, 5⟩⟩⟩

/-- The containing-symbol results for the three references. -/
def c8csym : String → Nat → Nat → Option USym := fun p l c =>
  if p = "b.py" ∧ l = 0 ∧ c = 0 then some c8fooImport
  else if p = "a.py" ∧ l = 0 ∧ c = 4 then some c8fooDef
  else if p = "a.py" ∧ l = 3 ∧ c = 2 then some c8bar
  else none

def c8emptyContents : String → List Char := fun _ => []

def c8emptyDocSyms : String → List USym := fun _ => []

/-- A completion server that always answers `isIncomplete = true`. -/
def c3incOracle : Nat → CompletionResponse := fun _ => .dictResp [] true

def c10item : RawCompletionItem :=
  { label := some "foo", insertText := some "foo", textEdit := none,
    detail := none, kind := some 3 }

/-- A completion server answering one complete response with one item. -/
def c10oracle : Nat → CompletionResponse := fun _ => .dictResp [c10item] false

/-! ## Theorems -/

/-- C2: the code initializes `_cache_has_changed` to the builtin type object
`bool` (line 184), which is truthy, not to the boolean `False` the claim
states; hence `save_cache` persists the cache even when no mutation
happened.  Mutation does set the flag to `True` and a truthy flag makes
`save_cache` write, so only the initialization deviates. -/
theorem c2_cache_flag_initialized_to_type_bool :
    init_cache_has_changed = .boolType ∧
    init_cache_has_changed ≠ .val false ∧
    save_cache_persists init_cache_has_changed = true ∧
    after_cache_mutation = .val true ∧
    save_cache_persists after_cache_mutation = true := by
  decide

/-- C1 counterexample: after inserting "X" at position (1,0) into the
freshly opened buffer for "hello\nworld", the buffer's `content_hash` is no
longer the MD5 hex digest of its current contents — the edit did not
recompute it. -/
theorem c1_hash_stale_after_insert_cex :
    (insert_text_at_position bufHelloWorld 1 0 ['X']).1.contents = "hello\nXworld".toList ∧
    (insert_text_at_position bufHelloWorld 1 0 ['X']).1.content_hash ≠
      md5Hexdigest (insert_text_at_position bufHelloWorld 1 0 ['X']).1.contents := by
  constructor
  · decide
  · decide

/-- C1 (amended): `content_hash` equals the MD5 hex digest of `contents` at
buffer construction, and both edit operations leave `content_hash` at its
construction-time value (they never recompute it), so after an edit that
changes `contents` the stored hash belongs to the old contents. -/
theorem c1_hash_computed_only_at_construction :
    ∀ (uri : String) (contents : List Char) (version : Nat) (language_id : String)
      (ref_count : Nat) (buf : LSPFileBuffer) (line column : Nat) (text : List Char)
      (start stop : Position),
    (mkLSPFileBuffer uri contents version language_id ref_count).content_hash
        = md5Hexdigest contents ∧
    (insert_text_at_position buf line column text).1.content_hash = buf.content_hash ∧
    (delete_text_between_positions buf start stop).1.content_hash = buf.content_hash := by
  intros
  exact ⟨rfl, rfl, rfl⟩

/-- C4 counterexample: open the file for `c4disk`, then delete the text of
line 0 from the buffer, so that line 0 of the open buffer's contents is
empty while line 0 on disk still reads `x = 1`.  The blank-line check of
`request_containing_symbol` re-reads the file from disk, so the call at
(0, 0) does not return `None` but the Variable symbol `x`. -/
theorem c4_blank_buffer_line_not_honored_cex :
    open_file_enter c4diskFn "python" [] c4uri = ([(c4uri, c4buf)], [.didOpen c4uri 0 c4disk]) ∧
    pyStrip ((splitOnChar '\n'
        (delete_text_between_positions c4buf ⟨0, 0⟩ ⟨0, 5⟩).1.contents).getD 0 ['x']) = [] ∧
    request_containing_symbol_impl c4disk [c4varX] "/repo/m.py" "m.py" 0 (some 0) false
      = .ok (some (normalize_symbol_location "/repo/m.py" "m.py" c4varX)) ∧
    Except.ok (some (normalize_symbol_location "/repo/m.py" "m.py" c4varX))
      ≠ (Except.ok none : Except Unit (Option USym)) := by
  refine ⟨rfl, by decide, by decide, by decide⟩

/-- C4 (amended): if the queried line of the file's contents *as re-read
from disk* is whitespace-only (and the line index is within the split disk
content, as it is for an index just past a trailing-newline file), the
result is `None`; the open buffer's contents are not consulted by this
check. -/
theorem c4_blank_disk_line_returns_none :
    ∀ (disk : List Char) (symbols : List USym) (abs rel : String) (line : Nat)
      (column : Option Nat) (strict : Bool) (l : List Char),
    (splitOnChar '\n' disk).get? line = some l →
    pyStrip l = [] →
    request_containing_symbol_impl disk symbols abs rel line column strict = .ok none := by
  intro disk symbols abs rel line column strict l h1 h2
  unfold request_containing_symbol_impl
  rw [h1]
  simp [h2]

/-- C4 witness: the spec's own example — a file whose last content line is
index 2 and which ends with a newline, queried at (3, 0) — yields `None`. -/
theorem c4_blank_disk_line_returns_none_witness :
    request_containing_symbol_impl ("class C:\n  def m(self):\n    x = 1\n".toList)
      [] "/repo/t.py" "t.py" 3 (some 0) false = .ok none :=
  c4_blank_disk_line_returns_none _ [] _ _ 3 (some 0) false [] (by decide) rfl

/-- C6 counterexample: flattening a hierarchical response (a class with one
child method, neither carrying a `location` key) yields entries whose
`location` is absent — no location is synthesized from the file URI and the
node's range by `request_document_symbols`. -/
theorem c6_no_location_synthesized_cex :
    request_document_symbols_flatten c6resp = [c6info0, c6info1] ∧
    c6info0.location = none ∧
    c6info1.location = none := by
  decide

/-- One flat entry per tree node. -/
theorem visitTree_length (t : DocTree) : (visitTree t).length = t.size := by
  induction t using DocTree.rec (motive_2 := fun l => (visitForest l).length = l.size) with
  | node info children ih => simp [visitTree, DocTree.size, ih]; omega
  | nil => simp [visitForest, DocForest.size]
  | cons h t ihh iht => simp [visitForest, DocForest.size, ihh, iht]

/-- Every flat entry is the info record of some node, carried verbatim. -/
theorem visitTree_mem (s : USym) (t : DocTree) (h : s ∈ visitTree t) :
    treeContainsInfo s t = true := by
  induction t using DocTree.rec
      (motive_2 := fun l => s ∈ visitForest l → forestContainsInfo s l = true) with
  | node info children ih =>
    simp only [visitTree, List.mem_cons] at h
    rcases h with h | h
    · simp [treeContainsInfo, h]
    · simp [treeContainsInfo, ih h]
  | nil => rename_i hm; simp [visitForest] at hm
  | cons hd tl ihh iht =>
    rename_i hm
    simp only [visitForest, List.mem_append] at hm
    rcases hm with hm | hm
    · simp [forestContainsInfo, ihh hm]
    · simp [forestContainsInfo, iht hm]

/-- C6 (amended): for a hierarchical response the flat list has exactly one
entry per tree node, produced by a depth-first preorder walk with children
detached.  Each entry is the node's own record carried verbatim; in
particular no `location` is synthesized by `request_document_symbols` (that
happens later, inside `request_containing_symbol`). -/
theorem c6_flatten_preorder_one_entry_per_node :
    (∀ t : DocTree, (visitTree t).length = t.size) ∧
    (∀ (info : USym) (children : DocForest),
      visitTree (.node info children) = info :: visitForest children) ∧
    (∀ (s : USym) (t : DocTree), s ∈ visitTree t → treeContainsInfo s t = true) ∧
    (∀ (info : USym) (ch : DocForest) (rest : List (USym × Option DocForest)),
      request_document_symbols_flatten ((info, some ch) :: rest)
        = visitTree (.node info ch) ++ request_document_symbols_flatten rest) :=
  ⟨visitTree_length, fun _ _ => rfl, visitTree_mem, fun _ _ _ => rfl⟩

/-- C6 witness: the amended theorem applied to the concrete two-node tree. -/
theorem c6_flatten_preorder_witness :
    (visitTree c6tree).length = c6tree.size ∧ treeContainsInfo c6info1 c6tree = true :=
  ⟨c6_flatten_preorder_one_entry_per_node.1 c6tree,
   c6_flatten_preorder_one_entry_per_node.2.2.1 c6info1 c6tree (by decide)⟩

/-- Python `max` returns an element of the list. -/
theorem pymaxBy_mem (key : USym → Nat) : ∀ (l : List USym) (cur : USym),
    pymaxBy key cur l ∈ cur :: l := by
  intro l
  induction l with
  | nil => intro cur; simp [pymaxBy]
  | cons x xs ih =>
    intro cur
    by_cases h : key x > key cur
    · have hred : pymaxBy key cur (x :: xs) = pymaxBy key x xs := by
        simp [pymaxBy, h]
      rw [hred]
      exact List.mem_cons_of_mem _ (ih x)
    · have hred : pymaxBy key cur (x :: xs) = pymaxBy key cur xs := by
        simp [pymaxBy, h]
      rw [hred]
      rcases List.mem_cons.mp (ih cur) with h' | h'
      · rw [h']
        exact List.mem_cons_self _ _
      · exact List.mem_cons_of_mem _ (List.mem_cons_of_mem _ h')

/-- Python `max` dominates every element. -/
theorem pymaxBy_ge (key : USym → Nat) : ∀ (l : List USym) (cur x : USym),
    x ∈ cur :: l → key x ≤ key (pymaxBy key cur l) := by
  intro l
  induction l with
  | nil =>
    intro cur x hx
    rcases List.mem_cons.mp hx with h | h
    · subst h; simp [pymaxBy]
    · simp at h
  | cons y ys ih =>
    intro cur x hx
    by_cases h : key y > key cur
    · have hred : pymaxBy key cur (y :: ys) = pymaxBy key y ys := by
        simp [pymaxBy, h]
      rw [hred]
      rcases List.mem_cons.mp hx with h' | h'
      · rw [h']
        exact le_of_lt (lt_of_lt_of_le h (ih y y (List.mem_cons_self _ _)))
      · exact ih y x h'
    · have hred : pymaxBy key cur (y :: ys) = pymaxBy key cur ys := by
        simp [pymaxBy, h]
      rw [hred]
      rcases List.mem_cons.mp hx with h' | h'
      · rw [h']
        exact ih cur cur (List.mem_cons_self _ _)
      · rcases List.mem_cons.mp h' with h'' | h''
        · rw [h'']
          exact le_trans (Nat.le_of_not_lt h) (ih cur cur (List.mem_cons_self _ _))
        · exact ih cur x (List.mem_cons_of_mem _ h'')

/-- Python `max` returns the *first* maximal element: everything before it
in the list has a strictly smaller key. -/
theorem pymaxBy_first (key : USym → Nat) : ∀ (l : List USym) (cur : USym),
    ∃ l₁ l₂, cur :: l = l₁ ++ pymaxBy key cur l :: l₂ ∧
      ∀ x ∈ l₁, key x < key (pymaxBy key cur l) := by
  intro l
  induction l with
  | nil =>
    intro cur
    exact ⟨[], [], rfl, by simp⟩
  | cons y ys ih =>
    intro cur
    by_cases h : key y > key cur
    · obtain ⟨l₁, l₂, heq, hlt⟩ := ih y
      refine ⟨cur :: l₁, l₂, ?_, ?_⟩
      · simp only [pymaxBy, if_pos h]
        rw [List.cons_append, ← heq]
      · intro x hx
        simp only [pymaxBy, if_pos h]
        rcases List.mem_cons.mp hx with h' | h'
        · rw [h']
          exact lt_of_lt_of_le h (pymaxBy_ge key ys y y (List.mem_cons_self _ _))
        · exact hlt x h'
    · obtain ⟨l₁, l₂, heq, hlt⟩ := ih cur
      cases l₁ with
      | nil =>
        simp only [List.nil_append] at heq
        injection heq with h1 h2
        refine ⟨[], y :: ys, ?_, by simp⟩
        simp only [pymaxBy, if_neg h, List.nil_append]
        rw [← h1]
      | cons a as =>
        simp only [List.cons_append] at heq
        injection heq with h1 h2
        refine ⟨a :: y :: as, l₂, ?_, ?_⟩
        · simp only [pymaxBy, if_neg h]
          rw [List.cons_append, List.cons_append, ← h2, h1]
        · intro x hx
          simp only [pymaxBy, if_neg h]
          have hca : key cur < key (pymaxBy key cur ys) := by
            have ha := hlt a (List.mem_cons_self _ _)
            rwa [← h1] at ha
          rcases List.mem_cons.mp hx with h' | h'
          · rw [h']
            exact hlt a (List.mem_cons_self _ _)
          · rcases List.mem_cons.mp h' with h'' | h''
            · rw [h'']
              exact lt_of_le_of_lt (Nat.le_of_not_lt h) hca
            · exact hlt x (List.mem_cons_of_mem _ h'')

/-- C7 counterexample: two multi-line function candidates both contain
position (0, 5) and share start line 0, with start characters 0 and 4.
Python's `max` keyed only on the start line returns the *first* of them
(start character 0), not the one with the greatest start character. -/
theorem c7_no_character_tiebreak_cex :
    request_containing_symbol_impl c7disk [c7symA, c7symB] c7abs c7rel 0 (some 5) false
      = .ok (some (normalize_symbol_location c7abs c7rel c7symA)) ∧
    (normalize_symbol_location c7abs c7rel c7symA).locRange.start.character = 0 ∧
    (normalize_symbol_location c7abs c7rel c7symB).locRange.start.character = 4 ∧
    (normalize_symbol_location c7abs c7rel c7symB).locRange.start.line
      = (normalize_symbol_location c7abs c7rel c7symA).locRange.start.line ∧
    (normalize_symbol_location c7abs c7rel c7symB)
      ∈ containing_matches false (some 5) 0
          (containing_candidates ([c7symA, c7symB].map (normalize_symbol_location c7abs c7rel))) := by
  refine ⟨by decide, by decide, by decide, by decide, by decide⟩

/-- C7 (amended): among the candidates whose range contains the queried
position, `request_containing_symbol` returns one attaining the greatest
range start line; when several share that start line it returns the first
such candidate in candidate order (there is no tie-break on the start
character). -/
theorem c7_returns_first_greatest_start_line :
    ∀ (disk : List Char) (symbols : List USym) (abs rel : String) (line : Nat)
      (column : Option Nat) (strict : Bool) (l : List Char) (x : USym) (xs : List USym),
    (splitOnChar '\n' disk).get? line = some l →
    pyStrip l ≠ [] →
    containing_matches strict column line
        (containing_candidates (symbols.map (normalize_symbol_location abs rel))) = x :: xs →
    ∃ m, request_containing_symbol_impl disk symbols abs rel line column strict
          = .ok (some m) ∧
      m ∈ x :: xs ∧
      (∀ s ∈ x :: xs, s.locRange.start.line ≤ m.locRange.start.line) ∧
      ∃ l₁ l₂, x :: xs = l₁ ++ m :: l₂ ∧
        ∀ s ∈ l₁, s.locRange.start.line < m.locRange.start.line := by
  intro disk symbols abs rel line column strict l x xs h1 h2 hm
  have hcands : containing_candidates (symbols.map (normalize_symbol_location abs rel)) ≠ [] := by
    intro hc
    rw [hc] at hm
    simp [containing_matches] at hm
  have hemp : (containing_candidates (symbols.map (normalize_symbol_location abs rel))).isEmpty
      = false := by
    cases hcl : containing_candidates (symbols.map (normalize_symbol_location abs rel)) with
    | nil => exact absurd hcl hcands
    | cons a as => rfl
  refine ⟨pymaxBy (fun s => s.locRange.start.line) x xs, ?_, ?_, ?_, ?_⟩
  · simp only [request_containing_symbol_impl, h1, if_neg h2, hemp, Bool.false_eq_true,
      if_false, hm]
  · exact pymaxBy_mem (fun s => s.locRange.start.line) xs x
  · exact fun s hs => pymaxBy_ge (fun s => s.locRange.start.line) xs x s hs
  · exact pymaxBy_first (fun s => s.locRange.start.line) xs x

/-- C7 witness: the amended theorem applied to the concrete two-candidate
scenario; the returned symbol is the first of the two equal-start-line
candidates. -/
theorem c7_returns_first_greatest_start_line_witness :
    ∃ m, request_containing_symbol_impl c7disk [c7symA, c7symB] c7abs c7rel 0 (some 5) false
        = .ok (some m) ∧
      m ∈ [normalize_symbol_location c7abs c7rel c7symA,
           normalize_symbol_location c7abs c7rel c7symB] ∧
      (∀ s ∈ [normalize_symbol_location c7abs c7rel c7symA,
              normalize_symbol_location c7abs c7rel c7symB],
        s.locRange.start.line ≤ m.locRange.start.line) := by
  obtain ⟨m, hres, hmem, hge, _⟩ :=
    c7_returns_first_greatest_start_line c7disk [c7symA, c7symB] c7abs c7rel 0 (some 5) false
      ("def a(): pass".toList)
      (normalize_symbol_location c7abs c7rel c7symA)
      [normalize_symbol_location c7abs c7rel c7symB]
      (by decide) (by decide) (by decide)
  exact ⟨m, hres, hmem, hge⟩

/-- Looking up a key absent from the table after appending a binding for it. -/
theorem lookupBuf_append_self (tbl : List (String × LSPFileBuffer)) (uri : String)
    (b : LSPFileBuffer) (h : lookupBuf tbl uri = none) :
    lookupBuf (tbl ++ [(uri, b)]) uri = some b := by
  induction tbl with
  | nil => simp [lookupBuf]
  | cons kv rest ih =>
    obtain ⟨k, v⟩ := kv
    by_cases hk : k = uri
    · simp [lookupBuf, hk] at h
    · simp only [lookupBuf, List.cons_append, if_neg hk] at h ⊢
      exact ih h

/-- A key that is not among the table keys looks up to `none`. -/
theorem lookupBuf_eq_none_of_not_mem (tbl : List (String × LSPFileBuffer)) (uri : String)
    (h : uri ∉ tbl.map Prod.fst) : lookupBuf tbl uri = none := by
  induction tbl with
  | nil => rfl
  | cons kv rest ih =>
    obtain ⟨k, v⟩ := kv
    simp only [List.map_cons, List.mem_cons] at h
    push_neg at h
    have hk : ¬(k = uri) := fun hkk => h.1 hkk.symm
    simp only [lookupBuf, if_neg hk]
    exact ih h.2

/-- Removing a key from a duplicate-free table makes it unfindable. -/
theorem lookupBuf_removeBuf (tbl : List (String × LSPFileBuffer)) (uri : String)
    (hnd : (tbl.map Prod.fst).Nodup) : lookupBuf (removeBuf tbl uri) uri = none := by
  induction tbl with
  | nil => rfl
  | cons kv rest ih =>
    obtain ⟨k, v⟩ := kv
    simp only [List.map_cons, List.nodup_cons] at hnd
    by_cases hk : k = uri
    · simp only [removeBuf, if_pos hk]
      exact lookupBuf_eq_none_of_not_mem rest uri (hk ▸ hnd.1)
    · simp only [removeBuf, if_neg hk, lookupBuf, if_neg hk]
      exact ih hnd.2

/-- C5: the `open_file` reference-counting discipline.  A first open reads
the file from disk, inserts a buffer with `ref_count = 1` and `version = 0`
and emits exactly one `didOpen`; a nested open only increments `ref_count`
and emits nothing; a release with `ref_count ≥ 2` only decrements and emits
nothing (so `didClose` is never sent while an outer scope holds the file);
a release with `ref_count = 1` emits exactly one `didClose` and removes the
entry from the table. -/
theorem c5_open_file_refcount_discipline :
    ∀ (disk : String → List Char) (lang : String) (tbl : List (String × LSPFileBuffer))
      (uri : String),
    (lookupBuf tbl uri = none →
      open_file_enter disk lang tbl uri =
        (tbl ++ [(uri, mkLSPFileBuffer uri (disk uri) 0 lang 1)],
         [.didOpen uri 0 (disk uri)]) ∧
      lookupBuf (open_file_enter disk lang tbl uri).1 uri =
        some (mkLSPFileBuffer uri (disk uri) 0 lang 1) ∧
      (mkLSPFileBuffer uri (disk uri) 0 lang 1).ref_count = 1 ∧
      (mkLSPFileBuffer uri (disk uri) 0 lang 1).version = 0 ∧
      (mkLSPFileBuffer uri (disk uri) 0 lang 1).contents = disk uri) ∧
    (∀ buf, lookupBuf tbl uri = some buf →
      open_file_enter disk lang tbl uri =
        (updateBuf tbl uri { buf with ref_count := buf.ref_count + 1 }, [])) ∧
    (∀ buf, lookupBuf tbl uri = some buf → 2 ≤ buf.ref_count →
      open_file_exit tbl uri =
        (updateBuf tbl uri { buf with ref_count := buf.ref_count - 1 }, [])) ∧
    (∀ buf, lookupBuf tbl uri = some buf → buf.ref_count = 1 →
      open_file_exit tbl uri = (removeBuf tbl uri, [.didClose uri]) ∧
      ((tbl.map Prod.fst).Nodup →
        lookupBuf (open_file_exit tbl uri).1 uri = none)) := by
  intro disk lang tbl uri
  refine ⟨?_, ?_, ?_, ?_⟩
  · intro h
    refine ⟨?_, ?_, rfl, rfl, rfl⟩
    · unfold open_file_enter
      rw [h]
    · unfold open_file_enter
      rw [h]
      exact lookupBuf_append_self tbl uri _ h
  · intro buf h
    unfold open_file_enter
    rw [h]
  · intro buf h h2
    unfold open_file_exit
    rw [h]
    have : ¬(buf.ref_count - 1 = 0) := by omega
    simp only [this, if_false]
  · intro buf h h1
    have hc : buf.ref_count - 1 = 0 := by omega
    constructor
    · unfold open_file_exit
      rw [h]
      simp [hc]
    · intro hnd
      unfold open_file_exit
      rw [h]
      simp [hc]
      exact lookupBuf_removeBuf tbl uri hnd

/-- C5 witness: open twice nested, then exit twice, on a concrete file.
One `didOpen` with version 0 on the first open, no events on the nested
open, no events on the inner exit, one `didClose` on the outer exit, and an
empty table afterwards. -/
theorem c5_open_file_refcount_discipline_witness :
    open_file_enter c5diskFn "python" [] c5uri = ([(c5uri, c5buf)], [.didOpen c5uri 0 ("print".toList)]) ∧
    open_file_enter c5diskFn "python" [(c5uri, c5buf)] c5uri = ([(c5uri, c5buf2)], []) ∧
    open_file_exit [(c5uri, c5buf2)] c5uri = ([(c5uri, c5buf)], []) ∧
    open_file_exit [(c5uri, c5buf)] c5uri = ([], [.didClose c5uri]) ∧
    lookupBuf ([] : List (String × LSPFileBuffer)) c5uri = none := by
  have h := c5_open_file_refcount_discipline c5diskFn "python" [] c5uri
  have h1 := (h.1 rfl).1
  have h2 := (c5_open_file_refcount_discipline c5diskFn "python" [(c5uri, c5buf)] c5uri).2.1
    c5buf (by simp [lookupBuf])
  have h3 := (c5_open_file_refcount_discipline c5diskFn "python" [(c5uri, c5buf2)] c5uri).2.2.1
    c5buf2 (by simp [lookupBuf]) (by simp [c5buf2, c5buf, mkLSPFileBuffer])
  have h4 := ((c5_open_file_refcount_discipline c5diskFn "python" [(c5uri, c5buf)] c5uri).2.2.2
    c5buf (by simp [lookupBuf]) rfl).1
  refine ⟨h1, ?_, ?_, ?_, rfl⟩
  · rw [h2]
    rfl
  · rw [h3]
    rfl
  · rw [h4]
    rfl

/-- Items surviving the keyword filter carry a kind other than `Keyword`. -/
theorem filterKeywordItems_kinds :
    ∀ (items l : List RawCompletionItem), filterKeywordItems items = .ok l →
    ∀ x ∈ l, ∃ k, x.kind = some k ∧ k ≠ CompletionItemKindKeyword := by
  intro items
  induction items with
  | nil =>
    intro l h x hx
    simp only [filterKeywordItems] at h
    cases h
    simp at hx
  | cons item rest ih =>
    intro l h x hx
    cases hk : item.kind with
    | none =>
      simp only [filterKeywordItems, hk] at h
      exact Except.noConfusion h
    | some k =>
      cases ht : filterKeywordItems rest with
      | error e =>
        simp only [filterKeywordItems, hk, ht] at h
        exact Except.noConfusion h
      | ok tail =>
        by_cases hkw : k ≠ CompletionItemKindKeyword
        · simp only [filterKeywordItems, hk, ht, if_pos hkw] at h
          injection h with h2
          rw [← h2] at hx
          rcases List.mem_cons.mp hx with h' | h'
          · exact ⟨k, by rw [h']; exact hk, hkw⟩
          · exact ih tail ht x h'
        · simp only [filterKeywordItems, hk, ht, if_neg hkw] at h
          injection h with h2
          rw [← h2] at hx
          exact ih tail ht x hx

/-- Normalization copies the raw item's kind into the result. -/
theorem normalizeCompletionItem_kind (queryPos : Position) (item : RawCompletionItem)
    (ci : CompletionItem) (h : normalizeCompletionItem queryPos item = .ok ci) :
    item.kind = some ci.kind := by
  unfold normalizeCompletionItem at h
  split at h
  · exact Except.noConfusion h
  · split at h
    · exact Except.noConfusion h
    · rename_i k hk
      split at h
      · injection h with h2
        subst h2
        exact hk
      · split at h
        · injection h with h2
          subst h2
          exact hk
        · split at h
          · exact Except.noConfusion h
          · split at h
            · injection h with h2
              subst h2
              exact hk
            · split at h
              · split at h
                · exact Except.noConfusion h
                · exact Except.noConfusion h
              · exact Except.noConfusion h

/-- Every normalized item arises from some raw item of the input list. -/
theorem normalizeCompletionList_mem (queryPos : Position) :
    ∀ (items : List RawCompletionItem) (l : List CompletionItem),
    normalizeCompletionList queryPos items = .ok l →
    ∀ ci ∈ l, ∃ item ∈ items, normalizeCompletionItem queryPos item = .ok ci := by
  intro items
  induction items with
  | nil =>
    intro l h ci hci
    simp only [normalizeCompletionList] at h
    cases h
    simp at hci
  | cons item rest ih =>
    intro l h ci hci
    cases hn : normalizeCompletionItem queryPos item with
    | error e =>
      simp only [normalizeCompletionList, hn] at h
      exact Except.noConfusion h
    | ok c =>
      cases ht : normalizeCompletionList queryPos rest with
      | error e =>
        simp only [normalizeCompletionList, hn, ht] at h
        exact Except.noConfusion h
      | ok tail =>
        simp only [normalizeCompletionList, hn, ht] at h
        injection h with h2
        rw [← h2] at hci
        rcases List.mem_cons.mp hci with h' | h'
        · exact ⟨item, List.mem_cons_self _ _, by rw [h']; exact hn⟩
        · obtain ⟨it, hmem, hok⟩ := ih tail ht ci h'
          exact ⟨it, List.mem_cons_of_mem _ hmem, hok⟩

/-- C10: a successful `request_completions` call never returns an item whose
kind is `Keyword` — such items are filtered out of the raw response before
normalization. -/
theorem c10_no_keyword_completions :
    ∀ (oracle : Nat → CompletionResponse) (queryPos : Position) (allow_incomplete : Bool)
      (fuel : Nat) (r : Except Unit (List CompletionItem)) (n : Nat),
    request_completions oracle queryPos allow_incomplete fuel = some (r, n) →
    ∀ l, r = .ok l → ∀ ci ∈ l, ci.kind ≠ CompletionItemKindKeyword := by
  intro oracle queryPos allow_incomplete fuel r n hreq l hr ci hci
  cases hloop : completionLoop oracle fuel none 0 with
  | none =>
    simp only [request_completions, hloop] at hreq
    exact Option.noConfusion hreq
  | some v =>
    obtain ⟨⟨items, isIncomplete⟩, m⟩ := v
    simp only [request_completions, hloop] at hreq
    by_cases hinc : (isIncomplete && !allow_incomplete) = true
    · rw [if_pos hinc] at hreq
      cases hreq
      cases hr
      simp at hci
    · rw [if_neg hinc] at hreq
      cases hf : filterKeywordItems items with
      | error e =>
        simp only [hf] at hreq
        cases hreq
        exact Except.noConfusion hr
      | ok filtered =>
        simp only [hf] at hreq
        cases hn : normalizeCompletionList queryPos filtered with
        | error e =>
          simp only [hn] at hreq
          cases hreq
          exact Except.noConfusion hr
        | ok cl =>
          simp only [hn] at hreq
          cases hreq
          cases hr
          have hmem : ci ∈ cl := List.mem_dedup.mp hci
          obtain ⟨item, hitem, hok⟩ := normalizeCompletionList_mem queryPos filtered cl hn ci hmem
          obtain ⟨k, hk, hkw⟩ := filterKeywordItems_kinds items filtered hf item hitem
          have := normalizeCompletionItem_kind queryPos item ci hok
          rw [hk] at this
          cases this
          exact hkw

/-- C10 witness: a concrete successful call returning one non-keyword item. -/
theorem c10_no_keyword_completions_witness :
    request_completions c10oracle ⟨0, 0⟩ false 2 = some (.ok [⟨"foo", 3, none⟩], 1) ∧
    (⟨"foo", 3, none⟩ : CompletionItem).kind ≠ CompletionItemKindKeyword := by
  refine ⟨by decide, ?_⟩
  exact c10_no_keyword_completions c10oracle ⟨0, 0⟩ false 2 (.ok [⟨"foo", 3, none⟩]) 1
    (by decide) [⟨"foo", 3, none⟩] rfl ⟨"foo", 3, none⟩ (List.mem_singleton.mpr rfl)

/-- C3 counterexample: with a server that always answers
`isIncomplete = true` and `allow_incomplete = true`, the code still performs
30 completion requests — the retry loop does not consult `allow_incomplete`,
whereas the claim says retries happen only while `allow_incomplete` is
false (which would mean a single request here). -/
theorem c3_retries_ignore_allow_incomplete_cex :
    request_completions c3incOracle ⟨0, 0⟩ true 40 = some (.ok [], 30) ∧ (30 : Nat) ≠ 1 := by
  exact ⟨by decide, by decide⟩

/-- If every server answer is a real response, the loop performs at most 30
requests. -/
theorem completionLoop_calls_le (oracle : Nat → CompletionResponse)
    (hresp : ∀ k, completionCall oracle k ≠ none) :
    ∀ (fuel : Nat) (resp : Option (List RawCompletionItem × Bool)) (n : Nat)
      (r : (List RawCompletionItem × Bool) × Nat),
    (resp = none → n = 0) → n ≤ 30 →
    completionLoop oracle fuel resp n = some r → r.2 ≤ 30 := by
  intro fuel
  induction fuel with
  | zero =>
    intro resp n r _ _ h
    cases h
  | succ fuel ih =>
    intro resp n r h0 h30 h
    cases resp with
    | none =>
      have hn : n = 0 := h0 rfl
      subst hn
      simp only [completionLoop] at h
      cases hcall : completionCall oracle 0 with
      | none => exact absurd hcall (hresp 0)
      | some v =>
        exact ih (completionCall oracle 0) 1 r
          (by rw [hcall]; intro hc; cases hc) (by omega) h
    | some p =>
      obtain ⟨items, isIncomplete⟩ := p
      simp only [completionLoop] at h
      by_cases hc : (isIncomplete && decide (n < 30)) = true
      · rw [if_pos hc] at h
        have hlt : n < 30 := by
          simp only [Bool.and_eq_true, decide_eq_true_eq] at hc
          exact hc.2
        cases hcall : completionCall oracle n with
        | none => exact absurd hcall (hresp n)
        | some v =>
          exact ih (completionCall oracle n) (n + 1) r
            (by rw [hcall]; intro hcc; cases hcc) (by omega) h
      · rw [if_neg hc] at h
        cases h
        exact h30

/-- C3 (amended): provided the server always returns an actual response, the
completion request is attempted at most 30 times in total, the loop retrying
while the response has `isIncomplete = true` regardless of
`allow_incomplete`; and if the final response is still incomplete and
`allow_incomplete` is false, the empty list is returned. -/
theorem c3_completion_retry_bound :
    ∀ (oracle : Nat → CompletionResponse) (queryPos : Position) (allow_incomplete : Bool)
      (fuel : Nat) (r : Except Unit (List CompletionItem)) (n : Nat),
    (∀ k, oracle k ≠ .noneResp) →
    request_completions oracle queryPos allow_incomplete fuel = some (r, n) →
    n ≤ 30 ∧
    (∀ items, completionLoop oracle fuel none 0 = some ((items, true), n) →
      allow_incomplete = false → r = .ok []) := by
  intro oracle queryPos allow_incomplete fuel r n horacle hreq
  have hresp : ∀ k, completionCall oracle k ≠ none := by
    intro k
    unfold completionCall
    cases ho : oracle k with
    | noneResp => exact absurd ho (horacle k)
    | listResp items => intro hc; cases hc
    | dictResp items isIncomplete => intro hc; cases hc
  cases hloop : completionLoop oracle fuel none 0 with
  | none =>
    simp only [request_completions, hloop] at hreq
    exact Option.noConfusion hreq
  | some v =>
    obtain ⟨⟨items, isIncomplete⟩, m⟩ := v
    simp only [request_completions, hloop] at hreq
    constructor
    · have hm : m ≤ 30 :=
        completionLoop_calls_le oracle hresp fuel none 0 ((items, isIncomplete), m)
          (fun _ => rfl) (by omega) hloop
      by_cases hinc : (isIncomplete && !allow_incomplete) = true
      · rw [if_pos hinc] at hreq
        cases hreq
        exact hm
      · rw [if_neg hinc] at hreq
        cases hreq
        exact hm
    · intro items2 hl2 hallow
      injection hl2 with hl2
      injection hl2 with hl2a hl2b
      injection hl2a with hi1 hi2
      subst hallow
      subst hi2
      rw [if_pos (by simp)] at hreq
      injection hreq with hreq
      injection hreq with hr1 _
      exact hr1.symm

/-- C3 witness: the bound theorem applied to the always-incomplete server
with `allow_incomplete = false`: 30 requests are sent and `[]` is returned. -/
theorem c3_completion_retry_bound_witness :
    request_completions c3incOracle ⟨0, 0⟩ false 40 = some (.ok [], 30) ∧ (30 : Nat) ≤ 30 := by
  have h := c3_completion_retry_bound c3incOracle ⟨0, 0⟩ false 40 (.ok []) 30
    (fun k hk => CompletionResponse.noConfusion hk) (by decide)
  exact ⟨by decide, h.1⟩

/-- C8 counterexample: `foo` is referenced at its import site in b.py, at its
own definition in a.py, and inside `bar` in a.py, with the import reference
delivered *first*.  With `include_imports = false` and
`include_self = false` the import-site containing symbol is still returned:
when it is processed, no self reference has been seen yet
(`incoming_symbol` is still `None`), so the import filter does not apply to
it, contradicting the claim that every such symbol is dropped. -/
theorem c8_import_before_self_not_filtered_cex :
    request_referencing_symbols_impl c8csym c8emptyContents c8emptyDocSyms "a.py" false false
        [c8refB, c8refSelf, c8refBar] = .ok [c8fooImport, c8bar] ∧
    c8fooImport.name = c8fooDef.name ∧
    c8fooImport.kind = c8fooDef.kind ∧
    c8fooImport ∈ [c8fooImport, c8bar] ∧
    ([c8fooImport, c8bar] : List USym) ≠ [c8bar] := by
  refine ⟨by decide, by decide, by decide, by decide, by decide⟩

/-- C8 (amended): the step behavior of the reference loop.  A containing
symbol is classified as the self reference by comparing its
(relativePath, selectionRange.start) against the query file and the
*reference's own* position; every such match updates `incoming_symbol` and
is kept iff `include_self`.  With `include_imports = false`, a non-self
containing symbol with the incoming symbol's (name, kind) is dropped only
when some earlier reference has already been classified self
(`incoming_symbol` is set); before that, it is kept.  Kept symbols are
returned in reference order. -/
theorem c8_referencing_filter_semantics :
    ∀ (csym : String → Nat → Nat → Option USym) (bc : String → List Char)
      (ds : String → List USym) (qpath : String) (imp self : Bool)
      (ref : RefLoc) (rest : List RefLoc) (incoming : Option USym)
      (acc : List USym) (cs : USym) (loc : MLocation),
    csym ref.relativePath ref.range.start.line ref.range.start.character = some cs →
    cs.location = some loc →
    ((loc.relativePath = qpath ∧ cs.selectionRange.start.line = ref.range.start.line ∧
        cs.selectionRange.start.character = ref.range.start.character) → self = true →
      referencingGo csym bc ds qpath imp self (ref :: rest) incoming acc =
        referencingGo csym bc ds qpath imp self rest (some cs) (cs :: acc)) ∧
    ((loc.relativePath = qpath ∧ cs.selectionRange.start.line = ref.range.start.line ∧
        cs.selectionRange.start.character = ref.range.start.character) → self = false →
      referencingGo csym bc ds qpath imp self (ref :: rest) incoming acc =
        referencingGo csym bc ds qpath imp self rest (some cs) acc) ∧
    (¬(loc.relativePath = qpath ∧ cs.selectionRange.start.line = ref.range.start.line ∧
        cs.selectionRange.start.character = ref.range.start.character) → incoming = none →
      referencingGo csym bc ds qpath imp self (ref :: rest) incoming acc =
        referencingGo csym bc ds qpath imp self rest none (cs :: acc)) ∧
    (∀ inc, ¬(loc.relativePath = qpath ∧ cs.selectionRange.start.line = ref.range.start.line ∧
        cs.selectionRange.start.character = ref.range.start.character) →
      incoming = some inc → imp = false → cs.name = inc.name → cs.kind = inc.kind →
      referencingGo csym bc ds qpath imp self (ref :: rest) incoming acc =
        referencingGo csym bc ds qpath imp self rest (some inc) acc) ∧
    (∀ inc, ¬(loc.relativePath = qpath ∧ cs.selectionRange.start.line = ref.range.start.line ∧
        cs.selectionRange.start.character = ref.range.start.character) →
      incoming = some inc → ¬(¬imp ∧ cs.name = inc.name ∧ cs.kind = inc.kind) →
      referencingGo csym bc ds qpath imp self (ref :: rest) incoming acc =
        referencingGo csym bc ds qpath imp self rest (some inc) (cs :: acc)) ∧
    (referencingGo csym bc ds qpath imp self [] incoming acc = .ok acc.reverse) := by
  intro csym bc ds qpath imp self ref rest incoming acc cs loc h1 h2
  refine ⟨?_, ?_, ?_, ?_, ?_, rfl⟩
  · intro hself hs
    subst hs
    simp only [referencingGo, h1, h2, if_pos hself]
    rw [if_pos trivial]
  · intro hself hs
    subst hs
    simp only [referencingGo, h1, h2, if_pos hself]
    rw [if_neg (by simp)]
  · intro hns hinc
    subst hinc
    simp only [referencingGo, h1, h2, if_neg hns]
  · intro inc hns hinc himp hname hkind
    subst hinc
    subst himp
    simp only [referencingGo, h1, h2, if_neg hns]
    rw [if_pos ⟨by simp, hname, hkind⟩]
  · intro inc hns hinc hfilter
    subst hinc
    simp only [referencingGo, h1, h2, if_neg hns]
    rw [if_neg hfilter]

/-- C8 witness: the step equations applied to the concrete scenario — the
self reference with `include_self = false` updates the incoming symbol and
is dropped, and the final run of the loop yields the filtered list. -/
theorem c8_referencing_filter_semantics_witness :
    referencingGo c8csym c8emptyContents c8emptyDocSyms "a.py" false false
        [c8refSelf] none [] =
      referencingGo c8csym c8emptyContents c8emptyDocSyms "a.py" false false
        [] (some c8fooDef) [] ∧
    referencingGo c8csym c8emptyContents c8emptyDocSyms "a.py" false false
        [] (some c8fooDef) [] = .ok [] := by
  have h := c8_referencing_filter_semantics c8csym c8emptyContents c8emptyDocSyms
    "a.py" false false c8refSelf [] none [] c8fooDef
    ⟨"file:///repo/a.py", "/repo/a.py", "a.py", ⟨⟨0, 0⟩, ⟨1, 0⟩⟩⟩ (by decide) (by decide)
  exact ⟨h.2.1 (by decide) rfl, h.2.2.2.2.2⟩

/-! ### C9: text-edit position arithmetic -/

theorem takeWhile_append_all (p : Char → Bool) (A B : List Char)
    (h : ∀ x ∈ A, p x = true) : (A ++ B).takeWhile p = A ++ B.takeWhile p := by
  induction A with
  | nil => simp
  | cons a A ih =>
    have ha : p a = true := h a (List.mem_cons_self _ _)
    simp only [List.cons_append, List.takeWhile_cons, ha, if_true]
    rw [ih (fun x hx => h x (List.mem_cons_of_mem _ hx))]

theorem dropWhile_append_all (p : Char → Bool) (A B : List Char)
    (h : ∀ x ∈ A, p x = true) : (A ++ B).dropWhile p = B.dropWhile p := by
  induction A with
  | nil => simp
  | cons a A ih =>
    have ha : p a = true := h a (List.mem_cons_self _ _)
    simp only [List.cons_append, List.dropWhile_cons, ha, if_true]
    exact ih (fun x hx => h x (List.mem_cons_of_mem _ hx))

theorem takeWhile_prefix_nl (F Z : List Char) (hF : ∀ x ∈ F, x ≠ '\n') :
    (F ++ '\n' :: Z).takeWhile (· ≠ '\n') = F := by
  rw [takeWhile_append_all _ F ('\n' :: Z) (fun x hx => decide_eq_true (hF x hx))]
  simp [List.takeWhile_cons]

theorem restAfter_prefix_nl (F Z : List Char) (hF : ∀ x ∈ F, x ≠ '\n') :
    restAfterNl (F ++ '\n' :: Z) = Z := by
  unfold restAfterNl
  rw [dropWhile_append_all _ F ('\n' :: Z) (fun x hx => decide_eq_true (hF x hx))]
  simp [List.dropWhile_cons]

theorem mem_takeWhile_ne_nl (c : List Char) (x : Char)
    (h : x ∈ c.takeWhile (· ≠ '\n')) : x ≠ '\n' := by
  have hx := List.mem_takeWhile_imp h
  simpa using hx

theorem nl_decomp (c : List Char) (h : '\n' ∈ c) :
    ∃ F Z, (∀ x ∈ F, x ≠ '\n') ∧ c = F ++ '\n' :: Z := by
  refine ⟨c.takeWhile (· ≠ '\n'), restAfterNl c,
    fun x hx => mem_takeWhile_ne_nl c x hx, ?_⟩
  induction c with
  | nil => simp at h
  | cons a c ih =>
    by_cases ha : a = '\n'
    · subst ha
      simp [List.takeWhile_cons, restAfterNl, List.dropWhile_cons]
    · have hm : '\n' ∈ c := by
        rcases List.mem_cons.mp h with h' | h'
        · exact absurd h'.symm ha
        · exact h'
      have hrec := ih hm
      simp only [List.takeWhile_cons, restAfterNl, List.dropWhile_cons,
        decide_eq_true (show a ≠ '\n' from ha), if_true, List.cons_append]
      unfold restAfterNl at hrec
      exact congrArg (a :: ·) hrec

theorem idx_succ_eq (F Z : List Char) (line col : Nat) (hF : ∀ x ∈ F, x ≠ '\n') :
    get_index_from_line_col (F ++ '\n' :: Z) (line + 1) col
      = F.length + 1 + get_index_from_line_col Z line col := by
  simp only [get_index_from_line_col, takeWhile_prefix_nl F Z hF, restAfter_prefix_nl F Z hF]

theorem validPos_succ_eq (F Z : List Char) (line col : Nat) (hF : ∀ x ∈ F, x ≠ '\n') :
    validPos (F ++ '\n' :: Z) (line + 1) col = validPos Z line col := by
  simp only [validPos, restAfter_prefix_nl F Z hF]
  have hm : '\n' ∈ F ++ '\n' :: Z := List.mem_append_right _ (List.mem_cons_self _ _)
  simp [hm]

theorem take_decomp (F Z : List Char) (g : Char) (i : Nat) :
    (F ++ g :: Z).take (F.length + 1 + i) = F ++ g :: Z.take i := by
  have h : F.length + 1 + i = F.length + (i + 1) := by omega
  rw [h, List.take_append, List.take_succ_cons]

theorem drop_decomp (F Z : List Char) (g : Char) (i : Nat) :
    (F ++ g :: Z).drop (F.length + 1 + i) = Z.drop i := by
  have h : F.length + 1 + i = F.length + (i + 1) := by omega
  rw [h, List.drop_append, List.drop_succ_cons]

theorem validPos_zero_le (c : List Char) (col : Nat) (hv : validPos c 0 col = true) :
    col ≤ (c.takeWhile (· ≠ '\n')).length := by
  simpa [validPos] using hv

theorem validPos_succ_split (c : List Char) (line col : Nat)
    (hv : validPos c (line + 1) col = true) :
    '\n' ∈ c ∧ validPos (restAfterNl c) line col = true := by
  simpa [validPos] using hv

theorem idx_le_length : ∀ (line : Nat) (c : List Char) (col : Nat),
    validPos c line col = true → get_index_from_line_col c line col ≤ c.length := by
  intro line
  induction line with
  | zero =>
    intro c col hv
    calc get_index_from_line_col c 0 col = col := rfl
      _ ≤ (c.takeWhile (· ≠ '\n')).length := validPos_zero_le c col hv
      _ ≤ c.length := (List.takeWhile_prefix _).length_le
  | succ line ih =>
    intro c col hv
    obtain ⟨hm, hv'⟩ := validPos_succ_split c line col hv
    obtain ⟨F, Z, hF, rfl⟩ := nl_decomp c hm
    rw [restAfter_prefix_nl F Z hF] at hv'
    rw [idx_succ_eq F Z line col hF]
    have := ih Z col hv'
    simp [List.length_append]
    omega

/-- Inserting at the index of a valid position does not change that
position's index. -/
theorem idx_insert_stable : ∀ (line : Nat) (c : List Char) (col : Nat) (X : List Char),
    validPos c line col = true →
    get_index_from_line_col
        (c.take (get_index_from_line_col c line col) ++ X
          ++ c.drop (get_index_from_line_col c line col)) line col
      = get_index_from_line_col c line col := by
  intro line
  induction line with
  | zero => intro c col X _; rfl
  | succ line ih =>
    intro c col X hv
    obtain ⟨hm, hv'⟩ := validPos_succ_split c line col hv
    obtain ⟨F, Z, hF, rfl⟩ := nl_decomp c hm
    rw [restAfter_prefix_nl F Z hF] at hv'
    rw [idx_succ_eq F Z line col hF, take_decomp, drop_decomp]
    have hassoc : (F ++ '\n' :: Z.take (get_index_from_line_col Z line col)) ++ X
          ++ Z.drop (get_index_from_line_col Z line col)
        = F ++ '\n' :: (Z.take (get_index_from_line_col Z line col) ++ X
            ++ Z.drop (get_index_from_line_col Z line col)) := by
      simp [List.append_assoc]
    rw [hassoc, idx_succ_eq _ _ line col hF, ih Z col X hv']

theorem take_of_le_takeWhile (c : List Char) (col : Nat)
    (h : col ≤ (c.takeWhile (· ≠ '\n')).length) :
    c.take col = (c.takeWhile (· ≠ '\n')).take col := by
  have hdec : c = c.takeWhile (· ≠ '\n') ++ c.dropWhile (· ≠ '\n') :=
    (List.takeWhile_append_dropWhile _ _).symm
  conv_lhs => rw [hdec]
  rw [List.take_append_eq_append_take, Nat.sub_eq_zero_of_le h, List.take_zero, List.append_nil]

theorem take_all_ne_nl (c : List Char) (col : Nat)
    (h : col ≤ (c.takeWhile (· ≠ '\n')).length) :
    ∀ x ∈ c.take col, x ≠ '\n' := by
  rw [take_of_le_takeWhile c col h]
  intro x hx
  exact mem_takeWhile_ne_nl c x (List.take_subset _ _ hx)

theorem length_take_of_valid (c : List Char) (col : Nat)
    (h : col ≤ (c.takeWhile (· ≠ '\n')).length) : (c.take col).length = col := by
  have h2 : col ≤ c.length := le_trans h (List.takeWhile_prefix _).length_le
  simp [List.length_take, Nat.min_eq_left h2]

/-- Inserting a non-newline character at a valid position: the position one
character to the right is valid in the result and its index is one more. -/
theorem insert_char_pos (ch : Char) (hch : ch ≠ '\n') :
    ∀ (line : Nat) (c : List Char) (col : Nat), validPos c line col = true →
    get_index_from_line_col
        (c.take (get_index_from_line_col c line col) ++ ch
          :: c.drop (get_index_from_line_col c line col)) line (col + 1)
      = get_index_from_line_col c line col + 1 ∧
    validPos
        (c.take (get_index_from_line_col c line col) ++ ch
          :: c.drop (get_index_from_line_col c line col)) line (col + 1) = true := by
  intro line
  induction line with
  | zero =>
    intro c col hv
    have hcol := validPos_zero_le c col hv
    have hall := take_all_ne_nl c col hcol
    rw [show get_index_from_line_col c 0 col = col from rfl]
    refine ⟨rfl, ?_⟩
    have h1 : (c.take col ++ ch :: c.drop col).takeWhile (· ≠ '\n')
        = c.take col ++ ch :: (c.drop col).takeWhile (· ≠ '\n') := by
      rw [takeWhile_append_all _ _ _ (fun x hx => decide_eq_true (hall x hx))]
      simp [List.takeWhile_cons, hch]
    simp only [validPos, h1, List.length_append, length_take_of_valid c col hcol,
      decide_eq_true_eq, List.length_cons]
    omega
  | succ line ih =>
    intro c col hv
    obtain ⟨hm, hv'⟩ := validPos_succ_split c line col hv
    obtain ⟨F, Z, hF, rfl⟩ := nl_decomp c hm
    rw [restAfter_prefix_nl F Z hF] at hv'
    rw [idx_succ_eq F Z line col hF, take_decomp, drop_decomp]
    have hassoc : (F ++ '\n' :: Z.take (get_index_from_line_col Z line col)) ++ ch
          :: Z.drop (get_index_from_line_col Z line col)
        = F ++ '\n' :: (Z.take (get_index_from_line_col Z line col) ++ ch
            :: Z.drop (get_index_from_line_col Z line col)) := by
      simp [List.append_assoc]
    rw [hassoc, idx_succ_eq _ _ line (col + 1) hF, validPos_succ_eq _ _ line (col + 1) hF]
    obtain ⟨ih1, ih2⟩ := ih Z col hv'
    rw [ih1]
    exact ⟨by omega, ih2⟩

/-- Inserting a newline at a valid position: the start of the next line is
valid in the result and its index is one more. -/
theorem insert_newline_pos :
    ∀ (line : Nat) (c : List Char) (col : Nat), validPos c line col = true →
    get_index_from_line_col
        (c.take (get_index_from_line_col c line col) ++ '\n'
          :: c.drop (get_index_from_line_col c line col)) (line + 1) 0
      = get_index_from_line_col c line col + 1 ∧
    validPos
        (c.take (get_index_from_line_col c line col) ++ '\n'
          :: c.drop (get_index_from_line_col c line col)) (line + 1) 0 = true := by
  intro line
  induction line with
  | zero =>
    intro c col hv
    have hcol := validPos_zero_le c col hv
    have hall := take_all_ne_nl c col hcol
    rw [show get_index_from_line_col c 0 col = col from rfl]
    constructor
    · rw [idx_succ_eq _ _ 0 0 hall, length_take_of_valid c col hcol]
      rfl
    · rw [validPos_succ_eq _ _ 0 0 hall]
      simp [validPos]
  | succ line ih =>
    intro c col hv
    obtain ⟨hm, hv'⟩ := validPos_succ_split c line col hv
    obtain ⟨F, Z, hF, rfl⟩ := nl_decomp c hm
    rw [restAfter_prefix_nl F Z hF] at hv'
    rw [idx_succ_eq F Z line col hF, take_decomp, drop_decomp]
    have hassoc : (F ++ '\n' :: Z.take (get_index_from_line_col Z line col)) ++ '\n'
          :: Z.drop (get_index_from_line_col Z line col)
        = F ++ '\n' :: (Z.take (get_index_from_line_col Z line col) ++ '\n'
            :: Z.drop (get_index_from_line_col Z line col)) := by
      simp [List.append_assoc]
    rw [hassoc, idx_succ_eq _ _ (line + 1) 0 hF, validPos_succ_eq _ _ (line + 1) 0 hF]
    obtain ⟨ih1, ih2⟩ := ih Z col hv'
    rw [ih1]
    exact ⟨by omega, ih2⟩

/-- Walking the inserted text lands on a valid position whose index is the
insertion index plus the length of the inserted text. -/
theorem idx_walk : ∀ (X : List Char) (line : Nat) (c : List Char) (col : Nat),
    validPos c line col = true →
    get_index_from_line_col
        (c.take (get_index_from_line_col c line col) ++ X
          ++ c.drop (get_index_from_line_col c line col))
        (get_updated_position line col X).1 (get_updated_position line col X).2
      = get_index_from_line_col c line col + X.length ∧
    validPos
        (c.take (get_index_from_line_col c line col) ++ X
          ++ c.drop (get_index_from_line_col c line col))
        (get_updated_position line col X).1 (get_updated_position line col X).2 = true := by
  intro X
  induction X with
  | nil =>
    intro line c col hv
    have hl : c.take (get_index_from_line_col c line col) ++ ([] : List Char)
          ++ c.drop (get_index_from_line_col c line col) = c := by
      simp [List.take_append_drop]
    rw [hl]
    exact ⟨by simp [get_updated_position], by simpa [get_updated_position] using hv⟩
  | cons ch X' ih =>
    intro line c col hv
    have hilen : get_index_from_line_col c line col ≤ c.length := idx_le_length line c col hv
    have hAlen : (c.take (get_index_from_line_col c line col)).length
        = get_index_from_line_col c line col := by
      simp [List.length_take, Nat.min_eq_left hilen]
    by_cases hch : ch = '\n'
    · subst hch
      obtain ⟨hB1, hB2⟩ := insert_newline_pos line c col hv
      obtain ⟨ihA, ihB⟩ := ih (line + 1)
        (c.take (get_index_from_line_col c line col) ++ '\n'
          :: c.drop (get_index_from_line_col c line col)) 0 hB2
      rw [hB1] at ihA ihB
      have htake1 : (c.take (get_index_from_line_col c line col) ++ '\n'
            :: c.drop (get_index_from_line_col c line col)).take
              (get_index_from_line_col c line col + 1)
          = c.take (get_index_from_line_col c line col) ++ ['\n'] := by
        have h : get_index_from_line_col c line col + 1
            = (c.take (get_index_from_line_col c line col)).length + 1 + 0 := by omega
        rw [h, take_decomp]
        simp
      have hdrop1 : (c.take (get_index_from_line_col c line col) ++ '\n'
            :: c.drop (get_index_from_line_col c line col)).drop
              (get_index_from_line_col c line col + 1)
          = c.drop (get_index_from_line_col c line col) := by
        have h : get_index_from_line_col c line col + 1
            = (c.take (get_index_from_line_col c line col)).length + 1 + 0 := by omega
        rw [h, drop_decomp]
        simp
      rw [htake1, hdrop1] at ihA ihB
      have hwalk : get_updated_position line col ('\n' :: X')
          = get_updated_position (line + 1) 0 X' := by
        simp [get_updated_position]
      rw [hwalk]
      have hlist : (c.take (get_index_from_line_col c line col) ++ ['\n']) ++ X'
            ++ c.drop (get_index_from_line_col c line col)
          = c.take (get_index_from_line_col c line col) ++ ('\n' :: X')
            ++ c.drop (get_index_from_line_col c line col) := by
        simp
      rw [hlist] at ihA ihB
      refine ⟨?_, ihB⟩
      rw [ihA]
      simp
      omega
    · obtain ⟨hB1, hB2⟩ := insert_char_pos ch hch line c col hv
      obtain ⟨ihA, ihB⟩ := ih line
        (c.take (get_index_from_line_col c line col) ++ ch
          :: c.drop (get_index_from_line_col c line col)) (col + 1) hB2
      rw [hB1] at ihA ihB
      have htake1 : (c.take (get_index_from_line_col c line col) ++ ch
            :: c.drop (get_index_from_line_col c line col)).take
              (get_index_from_line_col c line col + 1)
          = c.take (get_index_from_line_col c line col) ++ [ch] := by
        have h : get_index_from_line_col c line col + 1
            = (c.take (get_index_from_line_col c line col)).length + 1 + 0 := by omega
        rw [h, take_decomp]
        simp
      have hdrop1 : (c.take (get_index_from_line_col c line col) ++ ch
            :: c.drop (get_index_from_line_col c line col)).drop
              (get_index_from_line_col c line col + 1)
          = c.drop (get_index_from_line_col c line col) := by
        have h : get_index_from_line_col c line col + 1
            = (c.take (get_index_from_line_col c line col)).length + 1 + 0 := by omega
        rw [h, drop_decomp]
        simp
      rw [htake1, hdrop1] at ihA ihB
      have hwalk : get_updated_position line col (ch :: X')
          = get_updated_position line (col + 1) X' := by
        simp [get_updated_position, hch]
      rw [hwalk]
      have hlist : (c.take (get_index_from_line_col c line col) ++ [ch]) ++ X'
            ++ c.drop (get_index_from_line_col c line col)
          = c.take (get_index_from_line_col c line col) ++ (ch :: X')
            ++ c.drop (get_index_from_line_col c line col) := by
        simp
      rw [hlist] at ihA ihB
      refine ⟨?_, ihB⟩
      rw [ihA]
      simp
      omega

theorem splice_take_eq (c X : List Char) (i : Nat) (hi : i ≤ c.length) :
    (c.take i ++ X ++ c.drop i).take i = c.take i := by
  have hAlen : (c.take i).length = i := by simp [List.length_take, Nat.min_eq_left hi]
  have hAX : (c.take i ++ X).length = i + X.length := by simp [List.length_append, hAlen]
  rw [List.take_append_eq_append_take, List.take_append_eq_append_take, hAlen, Nat.sub_self,
    List.take_zero, List.append_nil, List.take_of_length_le (le_of_eq hAlen), hAX]
  have h0 : i - (i + X.length) = 0 := by omega
  rw [h0, List.take_zero, List.append_nil]

theorem splice_drop_eq (c X : List Char) (i : Nat) (hi : i ≤ c.length) :
    (c.take i ++ X ++ c.drop i).drop i = X ++ c.drop i := by
  have hAlen : (c.take i).length = i := by simp [List.length_take, Nat.min_eq_left hi]
  have hAX : (c.take i ++ X).length = i + X.length := by simp [List.length_append, hAlen]
  rw [List.drop_append_eq_append_drop, List.drop_append_eq_append_drop,
    List.drop_eq_nil_of_le (le_of_eq hAlen), hAlen, Nat.sub_self, List.drop_zero,
    List.nil_append, hAX]
  have h0 : i - (i + X.length) = 0 := by omega
  rw [h0, List.drop_zero]

theorem splice_deleted (c X : List Char) (i : Nat) (hi : i ≤ c.length) :
    ((c.take i ++ X ++ c.drop i).drop i).take (i + X.length - i) = X := by
  rw [splice_drop_eq c X i hi]
  have h : i + X.length - i = X.length := by omega
  rw [h, List.take_append_eq_append_take, List.take_length, Nat.sub_self, List.take_zero,
    List.append_nil]

theorem splice_restore (c X : List Char) (i : Nat) (hi : i ≤ c.length) :
    (c.take i ++ X ++ c.drop i).take i ++ (c.take i ++ X ++ c.drop i).drop (i + X.length) = c := by
  have hAlen : (c.take i).length = i := by simp [List.length_take, Nat.min_eq_left hi]
  have hAX : (c.take i ++ X).length = i + X.length := by simp [List.length_append, hAlen]
  rw [splice_take_eq c X i hi]
  have hdrop : (c.take i ++ X ++ c.drop i).drop (i + X.length) = c.drop i := by
    rw [List.drop_append_eq_append_drop, List.drop_eq_nil_of_le (le_of_eq hAX), hAX,
      Nat.sub_self, List.drop_zero, List.nil_append]
  rw [hdrop, List.take_append_drop]

theorem list_roundtrip (T X : List Char) (line col : Nat) (hv : validPos T line col = true) :
    ((T.take (get_index_from_line_col T line col) ++ X
        ++ T.drop (get_index_from_line_col T line col)).drop
          (get_index_from_line_col
            (T.take (get_index_from_line_col T line col) ++ X
              ++ T.drop (get_index_from_line_col T line col)) line col)).take
        (get_index_from_line_col
            (T.take (get_index_from_line_col T line col) ++ X
              ++ T.drop (get_index_from_line_col T line col))
            (get_updated_position line col X).1 (get_updated_position line col X).2
          - get_index_from_line_col
              (T.take (get_index_from_line_col T line col) ++ X
                ++ T.drop (get_index_from_line_col T line col)) line col)
      = X ∧
    (T.take (get_index_from_line_col T line col) ++ X
        ++ T.drop (get_index_from_line_col T line col)).take
          (get_index_from_line_col
            (T.take (get_index_from_line_col T line col) ++ X
              ++ T.drop (get_index_from_line_col T line col)) line col)
      ++ (T.take (get_index_from_line_col T line col) ++ X
          ++ T.drop (get_index_from_line_col T line col)).drop
            (get_index_from_line_col
              (T.take (get_index_from_line_col T line col) ++ X
                ++ T.drop (get_index_from_line_col T line col))
              (get_updated_position line col X).1 (get_updated_position line col X).2)
      = T := by
  have h1 := idx_insert_stable line T col X hv
  have h2 := (idx_walk X line T col hv).1
  have hi := idx_le_length line T col hv
  rw [h1, h2]
  exact ⟨splice_deleted T X _ hi, splice_restore T X _ hi⟩


/-- A buffer edit transforms `contents` exactly like the plain string edit. -/
theorem applyEditBuf_contents (b : LSPFileBuffer) (e : EditOp) :
    (applyEditBuf b e).contents = applyEditStr b.contents e := by
  cases e <;> rfl

/-- Folding buffer edits tracks folding string edits. -/
theorem foldl_applyEditBuf_contents :
    ∀ (edits : List EditOp) (b : LSPFileBuffer),
    (edits.foldl applyEditBuf b).contents = edits.foldl applyEditStr b.contents := by
  intro edits
  induction edits with
  | nil => intro b; rfl
  | cons e es ih =>
    intro b
    simp only [List.foldl_cons]
    rw [ih, applyEditBuf_contents]

/-- C9: applying any sequence of edits through `insert_text_at_position` and
`delete_text_between_positions` yields the same final contents as applying
the same edits to a fresh string copy of the initial text; and inserting a
text `X` at a valid position and then deleting exactly the range covering
`X` restores the original contents, the delete returns `X`, the version
grows by one per edit, and each edit emits one `didChange` carrying the new
version. -/
theorem c9_edits_match_fresh_string_and_roundtrip :
    (∀ (edits : List EditOp) (uri : String) (T : List Char) (v : Nat) (lang : String)
      (rc : Nat),
      (edits.foldl applyEditBuf (mkLSPFileBuffer uri T v lang rc)).contents
        = edits.foldl applyEditStr T) ∧
    (∀ (uri : String) (T : List Char) (v : Nat) (lang : String) (rc : Nat)
      (line col : Nat) (X : List Char),
      validPos T line col = true →
      (delete_text_between_positions
          (insert_text_at_position (mkLSPFileBuffer uri T v lang rc) line col X).1
          ⟨line, col⟩
          (insert_text_at_position (mkLSPFileBuffer uri T v lang rc) line col X).2.1).1.contents
        = T ∧
      (delete_text_between_positions
          (insert_text_at_position (mkLSPFileBuffer uri T v lang rc) line col X).1
          ⟨line, col⟩
          (insert_text_at_position (mkLSPFileBuffer uri T v lang rc) line col X).2.1).2.1
        = X ∧
      (insert_text_at_position (mkLSPFileBuffer uri T v lang rc) line col X).1.version
        = v + 1 ∧
      (delete_text_between_positions
          (insert_text_at_position (mkLSPFileBuffer uri T v lang rc) line col X).1
          ⟨line, col⟩
          (insert_text_at_position (mkLSPFileBuffer uri T v lang rc) line col X).2.1).1.version
        = v + 2 ∧
      (insert_text_at_position (mkLSPFileBuffer uri T v lang rc) line col X).2.2
        = .didChange uri (v + 1) ∧
      (delete_text_between_positions
          (insert_text_at_position (mkLSPFileBuffer uri T v lang rc) line col X).1
          ⟨line, col⟩
          (insert_text_at_position (mkLSPFileBuffer uri T v lang rc) line col X).2.1).2.2
        = .didChange uri (v + 2)) := by
  constructor
  · intro edits uri T v lang rc
    exact foldl_applyEditBuf_contents edits (mkLSPFileBuffer uri T v lang rc)
  · intro uri T v lang rc line col X hv
    have hi := idx_le_length line T col hv
    have h1 := idx_insert_stable line T col X hv
    have h2 := (idx_walk X line T col hv).1
    refine ⟨?_, ?_, rfl, rfl, rfl, rfl⟩
    · show (T.take (get_index_from_line_col T line col) ++ X
          ++ T.drop (get_index_from_line_col T line col)).take
            (get_index_from_line_col
              (T.take (get_index_from_line_col T line col) ++ X
                ++ T.drop (get_index_from_line_col T line col)) line col)
        ++ (T.take (get_index_from_line_col T line col) ++ X
            ++ T.drop (get_index_from_line_col T line col)).drop
              (get_index_from_line_col
                (T.take (get_index_from_line_col T line col) ++ X
                  ++ T.drop (get_index_from_line_col T line col))
                (get_updated_position line col X).1 (get_updated_position line col X).2)
        = T
      rw [h1, h2]
      exact splice_restore T X _ hi
    · show ((T.take (get_index_from_line_col T line col) ++ X
          ++ T.drop (get_index_from_line_col T line col)).drop
            (get_index_from_line_col
              (T.take (get_index_from_line_col T line col) ++ X
                ++ T.drop (get_index_from_line_col T line col)) line col)).take
            (get_index_from_line_col
                (T.take (get_index_from_line_col T line col) ++ X
                  ++ T.drop (get_index_from_line_col T line col))
                (get_updated_position line col X).1 (get_updated_position line col X).2
              - get_index_from_line_col
                  (T.take (get_index_from_line_col T line col) ++ X
                    ++ T.drop (get_index_from_line_col T line col)) line col)
        = X
      rw [h1, h2]
      exact splice_deleted T X _ hi

/-- C9 witness: the spec scenario — open "hello\nworld", insert "X" at
(1, 0), delete between (1, 0) and (1, 1).  The contents return to
"hello\nworld", the deleted text is "X", the versions are 1 and 2, and the
two `didChange` events carry versions 1 and 2. -/
theorem c9_edits_match_fresh_string_and_roundtrip_witness :
    (delete_text_between_positions
        (insert_text_at_position bufHelloWorld 1 0 ['X']).1
        ⟨1, 0⟩
        (insert_text_at_position bufHelloWorld 1 0 ['X']).2.1).1.contents
      = "hello\nworld".toList ∧
    (delete_text_between_positions
        (insert_text_at_position bufHelloWorld 1 0 ['X']).1
        ⟨1, 0⟩
        (insert_text_at_position bufHelloWorld 1 0 ['X']).2.1).2.1 = ['X'] ∧
    (insert_text_at_position bufHelloWorld 1 0 ['X']).2.1 = (⟨1, 1⟩ : Position) ∧
    (insert_text_at_position bufHelloWorld 1 0 ['X']).1.version = 1 ∧
    (delete_text_between_positions
        (insert_text_at_position bufHelloWorld 1 0 ['X']).1
        ⟨1, 0⟩
        (insert_text_at_position bufHelloWorld 1 0 ['X']).2.1).1.version = 2 ∧
    (insert_text_at_position bufHelloWorld 1 0 ['X']).2.2
      = .didChange "file:///repo/a.py" 1 ∧
    (delete_text_between_positions
        (insert_text_at_position bufHelloWorld 1 0 ['X']).1
        ⟨1, 0⟩
        (insert_text_at_position bufHelloWorld 1 0 ['X']).2.1).2.2
      = .didChange "file:///repo/a.py" 2 ∧
    ([EditOp.insertOp 1 0 ['X'], EditOp.deleteOp ⟨1, 0⟩ ⟨1, 1⟩].foldl applyEditBuf
        bufHelloWorld).contents
      = [EditOp.insertOp 1 0 ['X'], EditOp.deleteOp ⟨1, 0⟩ ⟨1, 1⟩].foldl applyEditStr
          ("hello\nworld".toList) := by
  have h := c9_edits_match_fresh_string_and_roundtrip.2 "file:///repo/a.py"
    ("hello\nworld".toList) 0 "python" 1 1 0 ['X'] (by decide)
  have hfold := c9_edits_match_fresh_string_and_roundtrip.1
    [EditOp.insertOp 1 0 ['X'], EditOp.deleteOp ⟨1, 0⟩ ⟨1, 1⟩]
    "file:///repo/a.py" ("hello\nworld".toList) 0 "python" 1
  exact ⟨h.1, h.2.1, by decide, h.2.2.1, h.2.2.2.1, h.2.2.2.2.1, h.2.2.2.2.2, hfold⟩

end Multilspy
